import Mathlib

/-!
# OrderedCollection (src/Main.cpp)

A shallow embedding of the class `OrderedCollection` of `src/Main.cpp` and of the two
non-deferred methods `iterate` and `contains` it inherits from `Collection`.

Modelling conventions.

* `int` is `Int`.  Where a result can leave the range of a 32-bit `int` although the operands
  are members of a buffer that satisfies the data-model invariant, it is reduced by `wrap32`:
  the doubling `alloc_size * 2` of `grow`, which passes `INT_MAX` once `alloc_size` reaches
  `2^30`, and the sum `x += i` of the visitor `addAll`.  The other sums and differences of
  members stay between `-1` and `alloc_size`.
* `int* array_` is an address into a `Heap` of blocks.  A block is the list of the slots of one
  `new int[n]`.  A slot access is bounds-checked and yields `none` outside the block, so a result
  `some _` of an operation says that every access it made was inside its block.
* The contents of a freshly allocated block are indeterminate in C++; the heap carries them as
  the field `junk`, over which every theorem quantifies.
* Fields of an object other than the array are held by value in the record
  `OrderedCollection`.
* A `for` loop is a recursion on a fuel argument that re-tests the loop condition of the source
  at every step.  Every caller passes as fuel the number of values the loop variable can take
  before its bound, so the fuel never runs out before the condition fails.
-/

namespace Collections

/-! ## Machine integers -/

/-- The value of a 32-bit two's-complement `int` after an arithmetic result `n`: `n` reduced
modulo `2^32` into `-2^31 .. 2^31 - 1`. -/
def wrap32 (n : Int) : Int :=
  (n + 2147483648) % 4294967296 - 2147483648

/-! ## Memory -/

/-- Read of slot `i` of a block: `a[i]` as an rvalue. -/
def rd (a : List Int) (i : Int) : Option Int :=
  if 0 ≤ i then a[i.toNat]? else none

/-- Write of slot `i` of a block: `a[i] = v`. -/
def wr (a : List Int) (i : Int) (v : Int) : Option (List Int) :=
  if 0 ≤ i ∧ i < a.length then some (a.set i.toNat v) else none

/-- The free store: the blocks handed out so far (`none` once released) and the indeterminate
contents `junk addr slot` that a fresh block at `addr` starts with. -/
structure Heap where
  cells : List (Option (List Int))
  junk : Nat → Nat → Int

/-- The block at address `p`, when it is live. -/
def Heap.load (h : Heap) (p : Nat) : Option (List Int) :=
  match h.cells[p]? with
  | some (some a) => some a
  | _ => none

/-- Replace the contents of the block at address `p`. -/
def Heap.store (h : Heap) (p : Nat) (a : List Int) : Heap :=
  { h with cells := h.cells.set p (some a) }

/-- The expression `new int[n]`: a fresh address and the heap extended by a block of `n` slots. -/
def Heap.alloc (h : Heap) (n : Int) : Option (Nat × Heap) :=
  if 0 ≤ n then
    some (h.cells.length,
      { h with cells := h.cells ++ [some ((List.range n.toNat).map (h.junk h.cells.length))] })
  else none

/-- The statement `delete[] p` (and `delete p` on an array of `int`). -/
def Heap.free (h : Heap) (p : Nat) : Option Heap :=
  match h.load p with
  | some _ => some { h with cells := h.cells.set p none }
  | none => none

/-! ## The object -/

/-- The data members of an `OrderedCollection`: `size_` from `Collection`, then `array_`
(an address), `first`, `last` and `alloc_size`. -/
structure OrderedCollection where
  size_ : Int
  array_ : Nat
  first : Int
  last : Int
  alloc_size : Int
  deriving DecidableEq

namespace OrderedCollection

/-- The accessor `Collection::size`. -/
def size (c : OrderedCollection) : Int := c.size_

/-- The default constructor `OrderedCollection()`. -/
def ctor (h : Heap) : Option (Heap × OrderedCollection) :=
  match h.alloc 4 with
  | some (p, h1) => some (h1, { size_ := 0, array_ := p, first := 1, last := 0, alloc_size := 4 })
  | none => none

/-- The loop `for (int i = first; i <= last; i++) array_[i] = oc.array_[i];` of the copy
constructor and of `operator=`. -/
def copyLoop (src : List Int) (last : Int) : Nat → Int → List Int → Option (List Int)
  | 0, i, dst => if i ≤ last then none else some dst
  | n + 1, i, dst =>
    if i ≤ last then
      match rd src i with
      | some v =>
        match wr dst i v with
        | some dst1 => copyLoop src last n (i + 1) dst1
        | none => none
      | none => none
    else some dst

/-- The copy constructor `OrderedCollection(const OrderedCollection& oc)`. -/
def copyCtor (h : Heap) (oc : OrderedCollection) : Option (Heap × OrderedCollection) :=
  match h.alloc oc.alloc_size with
  | some (p, h1) =>
    match h1.load oc.array_, h1.load p with
    | some src, some dst =>
      match copyLoop src oc.last (oc.last + 1 - oc.first).toNat oc.first dst with
      | some dst1 =>
        some (h1.store p dst1,
          { size_ := oc.size_, array_ := p, first := oc.first, last := oc.last,
            alloc_size := oc.alloc_size })
      | none => none
    | _, _ => none
  | none => none

/-- The method `copy`: a new object made by the copy constructor. -/
def copy (h : Heap) (c : OrderedCollection) : Option (Heap × OrderedCollection) :=
  copyCtor h c

/-- The argument of `operator=`: the receiver itself, a `Collection` that is not an
`OrderedCollection`, or another `OrderedCollection`. -/
inductive Rhs where
  | receiver
  | foreign
  | oc (temp : OrderedCollection)

/-- The assignment `operator=(Collection& rhs)`.  The member `size_` is not assigned. -/
def assign (h : Heap) (c : OrderedCollection) : Rhs → Option (Heap × OrderedCollection)
  | Rhs.receiver => some (h, c)
  | Rhs.foreign => some (h, c)
  | Rhs.oc temp =>
    match h.free c.array_ with
    | some h1 =>
      match h1.alloc temp.alloc_size with
      | some (p, h2) =>
        match h2.load temp.array_, h2.load p with
        | some src, some dst =>
          match copyLoop src temp.last (temp.last + 1 - temp.first).toNat temp.first dst with
          | some dst1 =>
            some (h2.store p dst1,
              { c with alloc_size := temp.alloc_size, first := temp.first, last := temp.last,
                       array_ := p })
          | none => none
        | _, _ => none
      | none => none
    | none => none

/-- The slot of `array_` that `operator[](i)` returns a reference to. -/
def subscript (c : OrderedCollection) (i : Int) : Int :=
  if i < 0 ∨ i > c.size_ then 0 else i + c.first

/-- Read through the reference returned by `operator[]`: the rvalue `(*this)[i]`. -/
def get (h : Heap) (c : OrderedCollection) (i : Int) : Option Int :=
  match h.load c.array_ with
  | some a => rd a (c.subscript i)
  | none => none

/-- Write through the reference returned by `operator[]`: the statement `(*this)[i] = v`. -/
def put (h : Heap) (c : OrderedCollection) (i : Int) (v : Int) : Option Heap :=
  match h.load c.array_ with
  | some a =>
    match wr a (c.subscript i) v with
    | some a1 => some (h.store c.array_ a1)
    | none => none
  | none => none

/-- The scan `for (int i = first; i <= last; i++) if (array_[i] == x) ...` of `remove`: the
slot of the first match, or `none` when the scan runs to its end. -/
def findLoop (x last : Int) : Nat → Int → List Int → Option (Option Int)
  | 0, i, _ => if i ≤ last then none else some none
  | n + 1, i, a =>
    if i ≤ last then
      match rd a i with
      | some v => if v = x then some (some i) else findLoop x last n (i + 1) a
      | none => none
    else some none

/-- The loop `for (int j = i; j > first; j--) array_[j] = array_[j-1];` of `remove`. -/
def closeGap (first : Int) : Nat → Int → List Int → Option (List Int)
  | 0, j, a => if j > first then none else some a
  | n + 1, j, a =>
    if j > first then
      match rd a (j - 1) with
      | some v =>
        match wr a j v with
        | some a1 => closeGap first n (j - 1) a1
        | none => none
      | none => none
    else some a

/-- The method `remove(int x)`: the returned flag, the heap and the receiver afterwards. -/
def remove (h : Heap) (c : OrderedCollection) (x : Int) :
    Option (Bool × Heap × OrderedCollection) :=
  if c.size_ = 0 then some (false, h, c)
  else
    match h.load c.array_ with
    | some a =>
      match findLoop x c.last (c.last + 1 - c.first).toNat c.first a with
      | some (some i) =>
        match closeGap c.first (i - c.first).toNat i a with
        | some a1 =>
          some (true, h.store c.array_ a1,
            { c with first := c.first + 1, size_ := c.size_ - 1 })
        | none => none
      | some none => some (false, h, c)
      | none => none
    | none => none

/-- The loop `for (int i = first, j = new_first; i <= last; i++, j++) new_array[j] = array_[i];`
of `grow`. -/
def growLoop (src : List Int) (last : Int) : Nat → Int → Int → List Int → Option (List Int)
  | 0, i, _, dst => if i ≤ last then none else some dst
  | n + 1, i, j, dst =>
    if i ≤ last then
      match rd src i with
      | some v =>
        match wr dst j v with
        | some dst1 => growLoop src last n (i + 1) (j + 1) dst1
        | none => none
      | none => none
    else some dst

/-- The method `grow`.  The size `alloc_size * 2` of the new block and the new value of
`alloc_size` are computed in `int`; a size that has wrapped to a negative number makes
`new int[...]` fail. -/
def grow (h : Heap) (c : OrderedCollection) : Option (Heap × OrderedCollection) :=
  match h.alloc (wrap32 (c.alloc_size * 2)) with
  | some (p, h1) =>
    let new_first := Int.tdiv c.alloc_size 2
    match h1.load c.array_, h1.load p with
    | some src, some dst =>
      match growLoop src c.last (c.last + 1 - c.first).toNat c.first new_first dst with
      | some dst1 =>
        match (h1.store p dst1).free c.array_ with
        | some h2 =>
          some (h2,
            { c with alloc_size := wrap32 (c.alloc_size * 2), array_ := p, first := new_first,
                     last := new_first + c.size_ - 1 })
        | none => none
      | none => none
    | _, _ => none
  | none => none

/-- The loop `for (int j = 0; j < pos && i <= last; i++, j++) array_[i-1] = array_[i];` of
`add`: the final `i` and the block. -/
def shiftLeft (pos last : Int) : Nat → Int → Int → List Int → Option (Int × List Int)
  | 0, i, j, a => if j < pos ∧ i ≤ last then none else some (i, a)
  | n + 1, i, j, a =>
    if j < pos ∧ i ≤ last then
      match rd a i with
      | some v =>
        match wr a (i - 1) v with
        | some a1 => shiftLeft pos last n (i + 1) (j + 1) a1
        | none => none
      | none => none
    else some (i, a)

/-- The loop `for (i = last; i >= pos; i--) array_[i+1] = array_[i];` of `add`. -/
def shiftRight (pos : Int) : Nat → Int → List Int → Option (List Int)
  | 0, i, a => if i ≥ pos then none else some a
  | n + 1, i, a =>
    if i ≥ pos then
      match rd a i with
      | some v =>
        match wr a (i + 1) v with
        | some a1 => shiftRight pos n (i - 1) a1
        | none => none
      | none => none
    else some a

/-- The part of `add` after the growth step: insertion at the front when `first != 0`, at the
back when `last != alloc_size - 1`, and the branch `Checks failed` otherwise. -/
def insert (h : Heap) (c : OrderedCollection) (x pos : Int) :
    Option (Heap × OrderedCollection) :=
  if c.first ≠ 0 then
    match h.load c.array_ with
    | some a =>
      match shiftLeft pos c.last (c.last + 1 - c.first).toNat c.first 0 a with
      | some (i, a1) =>
        match wr a1 (i - 1) x with
        | some a2 =>
          some (h.store c.array_ a2, { c with first := c.first - 1, size_ := c.size_ + 1 })
        | none => none
      | none => none
    | none => none
  else if c.last ≠ c.alloc_size - 1 then
    match h.load c.array_ with
    | some a =>
      match shiftRight pos (c.last + 1 - pos).toNat c.last a with
      | some a1 =>
        match wr a1 pos x with
        | some a2 =>
          some (h.store c.array_ a2, { c with last := c.last + 1, size_ := c.size_ + 1 })
        | none => none
      | none => none
    | none => none
  else some (h, c)

/-- The method `add(int x, int pos)`. -/
def add (h : Heap) (c : OrderedCollection) (x pos : Int) : Option (Heap × OrderedCollection) :=
  if pos > c.size_ ∨ pos < 0 then some (h, c)
  else if c.first > c.last then
    let mid := Int.tdiv c.alloc_size 2 - 1
    match h.load c.array_ with
    | some a =>
      match wr a mid x with
      | some a1 =>
        some (h.store c.array_ a1, { c with first := mid, last := mid, size_ := c.size_ + 1 })
      | none => none
    | none => none
  else if c.size_ = c.alloc_size then
    match grow h c with
    | some (h1, c1) => insert h1 c1 x pos
    | none => none
  else insert h c x pos

/-- The loop of `Collection::contains`: `for (int i = 0; i <= size_ - 1; i++)` with the test
`(*this)[i] == x`. -/
def containsLoop (h : Heap) (c : OrderedCollection) (x : Int) : Nat → Int → Option Bool
  | 0, i => if i ≤ c.size_ - 1 then none else some false
  | n + 1, i =>
    if i ≤ c.size_ - 1 then
      match get h c i with
      | some v => if v = x then some true else containsLoop h c x n (i + 1)
      | none => none
    else some false

/-- The method `Collection::contains`. -/
def contains (h : Heap) (c : OrderedCollection) (x : Int) : Option Bool :=
  containsLoop h c x c.size_.toNat 0

/-- The slot `array_[k]` of the receiver. -/
def peek (h : Heap) (c : OrderedCollection) (k : Int) : Option Int :=
  match h.load c.array_ with
  | some a => rd a k
  | none => none

/-- The data-model invariant: `array_` is a live block of `alloc_size` slots, `size_` counts
the slots of the window `first .. last`, and the window lies inside the block. -/
structure Inv (h : Heap) (c : OrderedCollection) : Prop where
  live : ∃ a, h.load c.array_ = some a ∧ (a.length : Int) = c.alloc_size
  count : c.size_ = c.last - c.first + 1
  size_nonneg : 0 ≤ c.size_
  first_nonneg : 0 ≤ c.first
  last_le : c.last ≤ c.alloc_size - 1
  size_le : c.size_ ≤ c.alloc_size

/-- The invariant can be tested on a given state. -/
instance Inv.decidable (h : Heap) (c : OrderedCollection) : Decidable (Inv h c) :=
  decidable_of_iff
    ((h.load c.array_).map (fun a => (a.length : Int)) = some c.alloc_size ∧
      c.size_ = c.last - c.first + 1 ∧ 0 ≤ c.size_ ∧ 0 ≤ c.first ∧
      c.last ≤ c.alloc_size - 1 ∧ c.size_ ≤ c.alloc_size)
    ⟨fun hh => ⟨by
        obtain ⟨a, ha, hlen⟩ := Option.map_eq_some'.1 hh.1
        exact ⟨a, ha, hlen⟩, hh.2.1, hh.2.2.1, hh.2.2.2.1, hh.2.2.2.2.1, hh.2.2.2.2.2⟩,
      fun hI => ⟨by
        obtain ⟨a, ha, hlen⟩ := hI.live
        rw [ha, Option.map_some', hlen], hI.count, hI.size_nonneg, hI.first_nonneg, hI.last_le,
        hI.size_le⟩⟩

/-- What a method of an object whose array is at `p` may do to the blocks of other objects:
nothing.  Blocks are only added to the heap, and every block other than `p` that existed
before is as it was. -/
def Frame (h h1 : Heap) (p : Nat) : Prop :=
  h.cells.length ≤ h1.cells.length ∧
    ∀ q, q ≠ p → q < h.cells.length → h1.load q = h.load q

/-- Whether `operator[](i)` takes the branch that writes `Illegal OC bound` to `cerr`: the
test `i < 0 || i > size_`. -/
def illegalBound (c : OrderedCollection) (i : Int) : Bool :=
  decide (i < 0 ∨ i > c.size_)

/-- The statement `if (size_ == alloc_size) grow();` of `add`, the growth step. -/
def growIfFull (h : Heap) (c : OrderedCollection) : Option (Heap × OrderedCollection) :=
  if c.size_ = c.alloc_size then grow h c else some (h, c)

/-- The test of the last `else` of `add`, the branch that writes `Checks failed`: neither
`first != 0` nor `last != alloc_size - 1`. -/
def checksFailed (c : OrderedCollection) : Bool :=
  decide (¬ c.first ≠ 0 ∧ ¬ c.last ≠ c.alloc_size - 1)

end OrderedCollection

/-! ## Runs of calls -/

open OrderedCollection

/-- A call of `add` or of `remove` on a collection. -/
inductive Op where
  | add (x pos : Int)
  | remove (x : Int)

/-- Apply the calls `ops` in order to the collection `c` in the heap `h`.  The counter `a` is
advanced at each `add` whose `pos` satisfied `0 <= pos <= size_` at the time of the call, the
counter `r` at each `remove` that returned `true`. -/
def runOps : List Op → Heap → OrderedCollection → Int → Int →
    Option (Heap × OrderedCollection × Int × Int)
  | [], h, c, a, r => some (h, c, a, r)
  | Op.add x pos :: ops, h, c, a, r =>
    match add h c x pos with
    | some (h1, c1) => runOps ops h1 c1 (if 0 ≤ pos ∧ pos ≤ c.size_ then a + 1 else a) r
    | none => none
  | Op.remove x :: ops, h, c, a, r =>
    match remove h c x with
    | some (b, h1, c1) => runOps ops h1 c1 a (if b = true then r + 1 else r)
    | none => none

/-- The states a collection can be in: made by the constructor in any heap, then changed by
`add`, `remove` and writes at an index in `0 .. size_ - 1`, or made by `copy` from such a
collection (the source then lives on in the heap that holds the copy). -/
inductive Reachable : Heap → OrderedCollection → Prop where
  | ctor {h h1 : Heap} {c : OrderedCollection} :
      ctor h = some (h1, c) → Reachable h1 c
  | add {h h1 : Heap} {c c1 : OrderedCollection} (x pos : Int) :
      Reachable h c → add h c x pos = some (h1, c1) → Reachable h1 c1
  | remove {h h1 : Heap} {c c1 : OrderedCollection} (x : Int) (b : Bool) :
      Reachable h c → remove h c x = some (b, h1, c1) → Reachable h1 c1
  | copy {h h1 : Heap} {c c1 : OrderedCollection} :
      Reachable h c → copy h c = some (h1, c1) → Reachable h1 c1
  | copySource {h h1 : Heap} {c c1 : OrderedCollection} :
      Reachable h c → copy h c = some (h1, c1) → Reachable h1 c
  | put {h h1 : Heap} {c : OrderedCollection} (i v : Int) :
      Reachable h c → 0 ≤ i → i ≤ c.size_ - 1 → put h c i v = some h1 → Reachable h1 c

/-! ## Concrete states -/

/-- An empty free store whose fresh blocks read as zero. -/
def heap0 : Heap := { cells := [], junk := fun _ _ => 0 }

/-- The free store after `temp->add(10, 0); temp->add(200, 1); temp->add(250, 1);` on a new
collection, as in `main`. -/
def heapA : Heap := { cells := [some [10, 250, 200, 0]], junk := fun _ _ => 0 }

/-- The collection `temp` of `main` after its first three additions: `[10, 250, 200]`. -/
def ocA : OrderedCollection :=
  { size_ := 3, array_ := 0, first := 0, last := 2, alloc_size := 4 }

/-- A free store whose single block has `2^30` slots, all zero. -/
def heapBig : Heap := { cells := [some (List.replicate 1073741824 0)], junk := fun _ _ => 0 }

/-- A full collection of `2^30` elements at capacity `2^30`, the largest capacity for which
`alloc_size * 2` has no `int` value. -/
def ocBig : OrderedCollection :=
  { size_ := 1073741824, array_ := 0, first := 0, last := 1073741823,
    alloc_size := 1073741824 }

/-- The free store holding a new empty collection (block 0) and the collection `[10]`
(block 1). -/
def heapPair : Heap :=
  { cells := [some [0, 0, 0, 0], some [0, 10, 0, 0]], junk := fun _ _ => 0 }

/-- A collection as the constructor leaves it, its array at address 0. -/
def ocFresh : OrderedCollection :=
  { size_ := 0, array_ := 0, first := 1, last := 0, alloc_size := 4 }

/-- The collection `[10]` made by `add(10, 0)` on a new collection, its array at address 1. -/
def ocOne : OrderedCollection :=
  { size_ := 1, array_ := 1, first := 1, last := 1, alloc_size := 4 }

/-- The free store after `add(10, 0); add(200, 1); add(250, 2); add(300, 3);` on a new
collection, as in the removal test of `main`. -/
def heapFull : Heap := { cells := [some [10, 200, 250, 300]], junk := fun _ _ => 0 }

/-- The collection `[10, 200, 250, 300]` of the removal test of `main`, at capacity 4. -/
def ocFull : OrderedCollection :=
  { size_ := 4, array_ := 0, first := 0, last := 3, alloc_size := 4 }

/-- The collection `[10]` of `heapPair` after `remove(10)`: empty, with the cursors
`first = 2`, `last = 1` that the removal leaves. -/
def ocEmptied : OrderedCollection :=
  { size_ := 0, array_ := 1, first := 2, last := 1, alloc_size := 4 }

/-- The free store of the removal test of `main` after `add(5, 0)` has made the collection
grow: the old block is released, the new one has eight slots. -/
def heapGrown : Heap :=
  { cells := [none, some [0, 5, 10, 200, 250, 300, 0, 0]], junk := fun _ _ => 0 }

/-- The collection `[5, 10, 200, 250, 300]` of the removal test of `main`, with one slot of
front slack. -/
def ocGrown : OrderedCollection :=
  { size_ := 5, array_ := 1, first := 1, last := 5, alloc_size := 8 }

end Collections

namespace Collections

/-! ## Machine integers -/

theorem wrap32_of_range {n : Int} (h0 : -2147483648 ≤ n) (h1 : n ≤ 2147483647) :
    wrap32 n = n := by
  unfold wrap32
  omega

theorem wrap32_neg_of_overflow {n : Int} (h0 : 2147483648 ≤ n) (h1 : n ≤ 4294967295) :
    wrap32 n < 0 := by
  unfold wrap32
  omega

theorem rd_eq_some_of_lt {a : List Int} {i : Int} (h0 : 0 ≤ i) (h1 : i < a.length) :
    ∃ v, rd a i = some v := by
  have hlt : i.toNat < a.length := by omega
  exact ⟨a[i.toNat], by simp [rd, h0, List.getElem?_eq_getElem hlt]⟩

theorem rd_eq_none_of_neg {a : List Int} {i : Int} (h : i < 0) : rd a i = none := by
  have : ¬ (0 ≤ i) := by omega
  simp [rd, this]

theorem rd_eq_none_of_ge {a : List Int} {i : Int} (h : (a.length : Int) ≤ i) : rd a i = none := by
  have h0 : 0 ≤ i := by omega
  have : a.length ≤ i.toNat := by omega
  simp [rd, h0, List.getElem?_eq_none this]

theorem rd_lt_of_eq_some {a : List Int} {i v : Int} (h : rd a i = some v) :
    0 ≤ i ∧ i < a.length := by
  by_cases h0 : i < 0
  · rw [rd_eq_none_of_neg h0] at h; cases h
  · by_cases h1 : (a.length : Int) ≤ i
    · rw [rd_eq_none_of_ge h1] at h; cases h
    · omega

theorem wr_eq_some_of_lt (a : List Int) {i : Int} (v : Int) (h0 : 0 ≤ i) (h1 : i < a.length) :
    ∃ b, wr a i v = some b :=
  ⟨a.set i.toNat v, by simp [wr, h0, h1]⟩

theorem wr_length {a b : List Int} {i v : Int} (h : wr a i v = some b) : b.length = a.length := by
  unfold wr at h
  split at h
  · cases h; simp
  · cases h

theorem rd_wr {a b : List Int} {i v : Int} (h : wr a i v = some b) (k : Int) :
    rd b k = if k = i then some v else rd a k := by
  unfold wr at h
  split at h
  · rename_i hi
    cases h
    unfold rd
    by_cases hk : 0 ≤ k
    · simp only [hk, if_true]
      rw [List.getElem?_set]
      by_cases e : k = i
      · subst e
        have : k.toNat < a.length := by omega
        simp [this]
      · have : i.toNat ≠ k.toNat := by omega
        simp [this, e]
    · have : k ≠ i := by omega
      simp [hk, this]
  · cases h

theorem wr_lt_of_eq_some {a b : List Int} {i v : Int} (h : wr a i v = some b) :
    0 ≤ i ∧ i < a.length := by
  unfold wr at h
  split at h
  · assumption
  · cases h

theorem wr_none_of_neg (a : List Int) {i : Int} (v : Int) (h : i < 0) : wr a i v = none := by
  have : ¬ (0 ≤ i ∧ i < a.length) := by omega
  simp [wr, this]

/-! ## The free store -/

theorem Heap.load_lt {h : Heap} {p : Nat} {a : List Int} (hl : h.load p = some a) :
    p < h.cells.length := by
  unfold Heap.load at hl
  by_contra hge
  rw [List.getElem?_eq_none (by omega)] at hl
  cases hl

theorem Heap.load_eq_none_of_ge {h : Heap} {p : Nat} (hp : h.cells.length ≤ p) :
    h.load p = none := by
  unfold Heap.load
  rw [List.getElem?_eq_none hp]

theorem Heap.load_store_self {h : Heap} {p : Nat} (b : List Int) (hp : p < h.cells.length) :
    (h.store p b).load p = some b := by
  simp [Heap.load, Heap.store, List.getElem?_set, hp]

theorem Heap.load_store_of_ne (h : Heap) {p q : Nat} (b : List Int) (hne : q ≠ p) :
    (h.store p b).load q = h.load q := by
  have : p ≠ q := fun e => hne e.symm
  simp [Heap.load, Heap.store, List.getElem?_set, this]

theorem Heap.cells_length_store (h : Heap) (p : Nat) (b : List Int) :
    (h.store p b).cells.length = h.cells.length := by
  simp [Heap.store]

theorem Heap.alloc_eq_some (h : Heap) {n : Int} (hn : 0 ≤ n) :
    ∃ h1, h.alloc n = some (h.cells.length, h1) ∧
      h1.cells.length = h.cells.length + 1 ∧
      (∃ b, h1.load h.cells.length = some b ∧ (b.length : Int) = n) ∧
      ∀ q, q ≠ h.cells.length → h1.load q = h.load q := by
  refine ⟨{ h with cells := h.cells ++
      [some ((List.range n.toNat).map (h.junk h.cells.length))] },
    by simp only [Heap.alloc, hn, if_true], by simp, ?_, ?_⟩
  · refine ⟨(List.range n.toNat).map (h.junk h.cells.length), ?_, ?_⟩
    · simp [Heap.load]
    · simp; omega
  · intro q hq
    unfold Heap.load
    by_cases hlt : q < h.cells.length
    · simp [List.getElem?_append_left hlt]
    · have hgt : h.cells.length < q := by omega
      rw [List.getElem?_eq_none (by simp; omega), List.getElem?_eq_none (by omega)]

theorem Heap.free_eq_some {h : Heap} {p : Nat} {a : List Int} (hl : h.load p = some a) :
    ∃ h1, h.free p = some h1 ∧ h1.cells.length = h.cells.length ∧ h1.load p = none ∧
      ∀ q, q ≠ p → h1.load q = h.load q := by
  refine ⟨{ h with cells := h.cells.set p none }, by simp only [Heap.free, hl], by simp, ?_, ?_⟩
  · have := Heap.load_lt hl
    simp [Heap.load, List.getElem?_set, this]
  · intro q hq
    have : p ≠ q := fun e => hq e.symm
    simp [Heap.load, List.getElem?_set, this]

/-! ## The loops -/

namespace OrderedCollection

theorem copyLoop_spec (src : List Int) (last : Int) :
    ∀ (n : Nat) (i : Int) (dst : List Int), n = (last + 1 - i).toNat → 0 ≤ i →
      last < src.length → last < dst.length →
      ∃ b, copyLoop src last n i dst = some b ∧ b.length = dst.length ∧
        ∀ k, rd b k = if i ≤ k ∧ k ≤ last then rd src k else rd dst k := by
  intro n
  induction n with
  | zero =>
    intro i dst hn hi hs hd
    have hgt : ¬ (i ≤ last) := by omega
    refine ⟨dst, by simp [copyLoop, hgt], rfl, ?_⟩
    intro k
    have : ¬ (i ≤ k ∧ k ≤ last) := by omega
    rw [if_neg this]
  | succ n ih =>
    intro i dst hn hi hs hd
    have hle : i ≤ last := by omega
    obtain ⟨v, hv⟩ := rd_eq_some_of_lt (a := src) hi (by omega)
    obtain ⟨d1, hd1⟩ := wr_eq_some_of_lt dst v hi (by omega)
    have hlen := wr_length hd1
    obtain ⟨b, hb, hbl, hbk⟩ := ih (i + 1) d1 (by omega) (by omega) hs (by omega)
    refine ⟨b, by simp [copyLoop, hle, hv, hd1, hb], by omega, ?_⟩
    intro k
    rw [hbk k, rd_wr hd1 k]
    by_cases e : k = i
    · subst e
      have : ¬ (k + 1 ≤ k ∧ k ≤ last) := by omega
      rw [if_neg this, if_pos rfl, if_pos ⟨le_refl k, hle⟩, hv]
    · by_cases c : i ≤ k ∧ k ≤ last
      · have : i + 1 ≤ k ∧ k ≤ last := by omega
        simp only [if_true, if_false, and_self, true_and, this, c]
      · have : ¬ (i + 1 ≤ k ∧ k ≤ last) := by omega
        simp only [if_true, if_false, and_self, true_and, this, c, e]

theorem growLoop_spec (src : List Int) (last : Int) :
    ∀ (n : Nat) (i j : Int) (dst : List Int), n = (last + 1 - i).toNat → 0 ≤ i → 0 ≤ j →
      last < src.length → j + (last - i) < dst.length →
      ∃ b, growLoop src last n i j dst = some b ∧ b.length = dst.length ∧
        ∀ k, rd b k = if j ≤ k ∧ k ≤ j + (last - i) then rd src (k - j + i) else rd dst k := by
  intro n
  induction n with
  | zero =>
    intro i j dst hn hi hj hs hd
    have hgt : ¬ (i ≤ last) := by omega
    refine ⟨dst, by simp [growLoop, hgt], rfl, ?_⟩
    intro k
    have : ¬ (j ≤ k ∧ k ≤ j + (last - i)) := by omega
    rw [if_neg this]
  | succ n ih =>
    intro i j dst hn hi hj hs hd
    have hle : i ≤ last := by omega
    obtain ⟨v, hv⟩ := rd_eq_some_of_lt (a := src) hi (by omega)
    obtain ⟨d1, hd1⟩ := wr_eq_some_of_lt dst v hj (by omega)
    have hlen := wr_length hd1
    obtain ⟨b, hb, hbl, hbk⟩ :=
      ih (i + 1) (j + 1) d1 (by omega) (by omega) (by omega) hs (by omega)
    refine ⟨b, by simp [growLoop, hle, hv, hd1, hb], by omega, ?_⟩
    intro k
    rw [hbk k, rd_wr hd1 k]
    have harg : k - (j + 1) + (i + 1) = k - j + i := by ring
    rw [harg]
    by_cases e : k = j
    · subst e
      have h1 : ¬ (k + 1 ≤ k ∧ k ≤ k + 1 + (last - (i + 1))) := by omega
      have h2 : k ≤ k ∧ k ≤ k + (last - i) := by omega
      have h3 : k - k + i = i := by ring
      rw [if_neg h1, if_pos rfl, if_pos h2, h3, hv]
    · by_cases c : j ≤ k ∧ k ≤ j + (last - i)
      · have : j + 1 ≤ k ∧ k ≤ j + 1 + (last - (i + 1)) := by omega
        simp only [if_true, if_false, and_self, true_and, this, c]
      · have : ¬ (j + 1 ≤ k ∧ k ≤ j + 1 + (last - (i + 1))) := by omega
        simp only [if_true, if_false, and_self, true_and, this, c, e]

/-- When the copy loop of `grow` completes, every slot it read and wrote was inside its
block. -/
theorem growLoop_bounds (src : List Int) (last : Int) :
    ∀ (n : Nat) (i j : Int) (dst b : List Int), growLoop src last n i j dst = some b →
      i ≤ last → 0 ≤ i ∧ last < src.length ∧ 0 ≤ j ∧ j + (last - i) < dst.length := by
  intro n
  induction n with
  | zero =>
    intro i j dst b hb hle
    simp only [growLoop, hle, if_true] at hb
    cases hb
  | succ n ih =>
    intro i j dst b hb hle
    simp only [growLoop, hle, if_true] at hb
    split at hb
    · rename_i v hv
      split at hb
      · rename_i d1 hd1
        obtain ⟨hi0, hi1⟩ := rd_lt_of_eq_some hv
        obtain ⟨hj0, hj1⟩ := wr_lt_of_eq_some hd1
        have hlen := wr_length hd1
        by_cases hnext : i + 1 ≤ last
        · obtain ⟨-, hs, -, hd⟩ := ih (i + 1) (j + 1) d1 b hb hnext
          exact ⟨hi0, hs, hj0, by omega⟩
        · exact ⟨hi0, by omega, hj0, by omega⟩
      · cases hb
    · cases hb

theorem findLoop_spec (x last : Int) (a : List Int) :
    ∀ (n : Nat) (i : Int), n = (last + 1 - i).toNat → 0 ≤ i → last < a.length →
      (∃ k, findLoop x last n i a = some (some k) ∧ i ≤ k ∧ k ≤ last ∧ rd a k = some x ∧
          ∀ m, i ≤ m → m < k → rd a m ≠ some x) ∨
      (findLoop x last n i a = some none ∧ ∀ m, i ≤ m → m ≤ last → rd a m ≠ some x) := by
  intro n
  induction n with
  | zero =>
    intro i hn hi ha
    have hgt : ¬ (i ≤ last) := by omega
    refine Or.inr ⟨by simp [findLoop, hgt], ?_⟩
    intro m h1 h2
    omega
  | succ n ih =>
    intro i hn hi ha
    have hle : i ≤ last := by omega
    obtain ⟨v, hv⟩ := rd_eq_some_of_lt (a := a) hi (by omega)
    by_cases e : v = x
    · subst e
      refine Or.inl ⟨i, by simp [findLoop, hle, hv], le_refl _, hle, hv, ?_⟩
      intro m h1 h2
      omega
    · rcases ih (i + 1) (by omega) (by omega) ha with ⟨k, hk, h1, h2, h3, h4⟩ | ⟨hk, h1⟩
      · refine Or.inl ⟨k, by simp [findLoop, hle, hv, e, hk], by omega, h2, h3, ?_⟩
        intro m hm1 hm2
        by_cases em : m = i
        · subst em
          rw [hv]
          intro hc
          exact e (Option.some.inj hc)
        · exact h4 m (by omega) hm2
      · refine Or.inr ⟨by simp [findLoop, hle, hv, e, hk], ?_⟩
        intro m hm1 hm2
        by_cases em : m = i
        · subst em
          rw [hv]
          intro hc
          exact e (Option.some.inj hc)
        · exact h1 m (by omega) hm2

theorem closeGap_spec (first : Int) :
    ∀ (n : Nat) (j : Int) (a : List Int), n = (j - first).toNat → 0 ≤ first → j < a.length →
      ∃ b, closeGap first n j a = some b ∧ b.length = a.length ∧
        ∀ k, rd b k = if first < k ∧ k ≤ j then rd a (k - 1) else rd a k := by
  intro n
  induction n with
  | zero =>
    intro j a hn hf hj
    have hgt : ¬ (j > first) := by omega
    refine ⟨a, by simp only [closeGap, hgt, if_false], rfl, ?_⟩
    intro k
    have : ¬ (first < k ∧ k ≤ j) := by omega
    rw [if_neg this]
  | succ n ih =>
    intro j a hn hf hj
    have hlt : j > first := by omega
    obtain ⟨v, hv⟩ := rd_eq_some_of_lt (a := a) (i := j - 1) (by omega) (by omega)
    obtain ⟨a1, ha1⟩ := wr_eq_some_of_lt a v (i := j) (by omega) hj
    have hlen := wr_length ha1
    obtain ⟨b, hb, hbl, hbk⟩ := ih (j - 1) a1 (by omega) hf (by omega)
    refine ⟨b, by simp only [closeGap, hlt, if_true, hv, ha1, hb], by omega, ?_⟩
    intro k
    rw [hbk k, rd_wr ha1 k, rd_wr ha1 (k - 1)]
    by_cases e : k = j
    · subst e
      have h1 : ¬ (first < k ∧ k ≤ k - 1) := by omega
      have h2 : first < k ∧ k ≤ k := by omega
      rw [if_neg h1, if_pos rfl, if_pos h2, hv]
    · by_cases c : first < k ∧ k ≤ j
      · have h1 : first < k ∧ k ≤ j - 1 := by omega
        have h2 : k - 1 ≠ j := by omega
        simp only [if_true, if_false, and_self, true_and, h1, c, h2]
      · have h1 : ¬ (first < k ∧ k ≤ j - 1) := by omega
        simp only [if_true, if_false, and_self, true_and, h1, c, e]

theorem shiftLeft_spec (pos last : Int) :
    ∀ (n : Nat) (i j : Int) (a : List Int), (pos - j).toNat ≤ n → j ≤ pos →
      pos - j ≤ last + 1 - i → 1 ≤ i → last < a.length →
      ∃ b, shiftLeft pos last n i j a = some (i + (pos - j), b) ∧ b.length = a.length ∧
        ∀ k, rd b k = if i - 1 ≤ k ∧ k < i - 1 + (pos - j) then rd a (k + 1) else rd a k := by
  intro n
  induction n with
  | zero =>
    intro i j a hn hj hp hi ha
    have hgt : ¬ (j < pos ∧ i ≤ last) := by omega
    have he : i + (pos - j) = i := by omega
    refine ⟨a, by simp only [shiftLeft, hgt, if_false, he], rfl, ?_⟩
    intro k
    have : ¬ (i - 1 ≤ k ∧ k < i - 1 + (pos - j)) := by omega
    rw [if_neg this]
  | succ n ih =>
    intro i j a hn hj hp hi ha
    by_cases hc : j < pos ∧ i ≤ last
    · obtain ⟨v, hv⟩ := rd_eq_some_of_lt (a := a) (i := i) (by omega) (by omega)
      obtain ⟨a1, ha1⟩ := wr_eq_some_of_lt a v (i := i - 1) (by omega) (by omega)
      have hlen := wr_length ha1
      obtain ⟨b, hb, hbl, hbk⟩ :=
        ih (i + 1) (j + 1) a1 (by omega) (by omega) (by omega) (by omega) (by omega)
      have he : i + 1 + (pos - (j + 1)) = i + (pos - j) := by ring
      rw [he] at hb
      refine ⟨b, by simp only [shiftLeft, hc, and_self, if_true, hv, ha1, hb], by omega, ?_⟩
      intro k
      rw [hbk k, rd_wr ha1 k, rd_wr ha1 (k + 1)]
      by_cases e : k = i - 1
      · subst e
        have h1 : ¬ (i + 1 - 1 ≤ i - 1 ∧ i - 1 < i + 1 - 1 + (pos - (j + 1))) := by omega
        have h2 : i - 1 ≤ i - 1 ∧ i - 1 < i - 1 + (pos - j) := by omega
        have h3 : i - 1 + 1 = i := by ring
        simp only [if_true, if_false, and_self, true_and, h1, h2, h3, hv]
      · by_cases c : i - 1 ≤ k ∧ k < i - 1 + (pos - j)
        · have h1 : i + 1 - 1 ≤ k ∧ k < i + 1 - 1 + (pos - (j + 1)) := by omega
          have h2 : k + 1 ≠ i - 1 := by omega
          simp only [if_true, if_false, and_self, true_and, h1, c, h2]
        · have h1 : ¬ (i + 1 - 1 ≤ k ∧ k < i + 1 - 1 + (pos - (j + 1))) := by omega
          simp only [if_true, if_false, and_self, true_and, h1, c, e]
    · have he : i + (pos - j) = i := by omega
      refine ⟨a, by simp only [shiftLeft, hc, if_false, he], rfl, ?_⟩
      intro k
      have : ¬ (i - 1 ≤ k ∧ k < i - 1 + (pos - j)) := by omega
      rw [if_neg this]

theorem shiftRight_spec (pos : Int) :
    ∀ (n : Nat) (i : Int) (a : List Int), n = (i + 1 - pos).toNat → 0 ≤ pos →
      i + 1 < a.length →
      ∃ b, shiftRight pos n i a = some b ∧ b.length = a.length ∧
        ∀ k, rd b k = if pos < k ∧ k ≤ i + 1 then rd a (k - 1) else rd a k := by
  intro n
  induction n with
  | zero =>
    intro i a hn hp ha
    have hgt : ¬ (i ≥ pos) := by omega
    refine ⟨a, by simp only [shiftRight, hgt, if_false], rfl, ?_⟩
    intro k
    have : ¬ (pos < k ∧ k ≤ i + 1) := by omega
    rw [if_neg this]
  | succ n ih =>
    intro i a hn hp ha
    have hge : i ≥ pos := by omega
    obtain ⟨v, hv⟩ := rd_eq_some_of_lt (a := a) (i := i) (by omega) (by omega)
    obtain ⟨a1, ha1⟩ := wr_eq_some_of_lt a v (i := i + 1) (by omega) ha
    have hlen := wr_length ha1
    obtain ⟨b, hb, hbl, hbk⟩ := ih (i - 1) a1 (by omega) hp (by omega)
    refine ⟨b, by simp only [shiftRight, hge, if_true, hv, ha1, hb], by omega, ?_⟩
    intro k
    rw [hbk k, rd_wr ha1 k, rd_wr ha1 (k - 1)]
    by_cases e : k = i + 1
    · subst e
      have h1 : ¬ (pos < i + 1 ∧ i + 1 ≤ i - 1 + 1) := by omega
      have h2 : pos < i + 1 ∧ i + 1 ≤ i + 1 := by omega
      have h3 : i + 1 - 1 = i := by ring
      rw [if_neg h1, if_pos rfl, if_pos h2, h3, hv]
    · by_cases c : pos < k ∧ k ≤ i + 1
      · have h1 : pos < k ∧ k ≤ i - 1 + 1 := by omega
        have h2 : k - 1 ≠ i + 1 := by omega
        simp only [if_true, if_false, and_self, true_and, h1, c, h2]
      · have h1 : ¬ (pos < k ∧ k ≤ i - 1 + 1) := by omega
        simp only [if_true, if_false, and_self, true_and, h1, c, e]

end OrderedCollection

/-! ## The accessor -/

namespace OrderedCollection

theorem subscript_of_le {c : OrderedCollection} {i : Int} (h0 : 0 ≤ i) (h1 : i ≤ c.size_) :
    c.subscript i = i + c.first := by
  have : ¬ (i < 0 ∨ i > c.size_) := by omega
  simp only [subscript, this, if_false]

theorem subscript_of_out {c : OrderedCollection} {i : Int} (ho : i < 0 ∨ i > c.size_) :
    c.subscript i = 0 := by
  simp only [subscript, ho, if_true]

theorem get_eq_peek (h : Heap) (c : OrderedCollection) (i : Int) :
    get h c i = peek h c (c.subscript i) := rfl

theorem get_of_le (h : Heap) {c : OrderedCollection} {i : Int} (h0 : 0 ≤ i) (h1 : i ≤ c.size_) :
    get h c i = peek h c (i + c.first) := by
  rw [get_eq_peek, subscript_of_le h0 h1]

theorem peek_of_load {h : Heap} {c : OrderedCollection} {a : List Int}
    (hl : h.load c.array_ = some a) (k : Int) : peek h c k = rd a k := by
  simp only [peek, hl]

theorem peek_store {h : Heap} {c d : OrderedCollection} {a : List Int} (b : List Int)
    (hl : h.load c.array_ = some a) (hd : d.array_ = c.array_) (k : Int) :
    peek (h.store c.array_ b) d k = rd b k := by
  simp only [peek, hd, Heap.load_store_self b (Heap.load_lt hl)]

theorem Frame.refl (h : Heap) (p : Nat) : Frame h h p :=
  ⟨le_refl _, fun _ _ _ => rfl⟩

theorem Frame.store (h : Heap) (p : Nat) (b : List Int) : Frame h (h.store p b) p :=
  ⟨by simp [Heap.store], fun _ hq _ => Heap.load_store_of_ne h b hq⟩

theorem Frame.peek_eq {h h1 : Heap} {p : Nat} (hF : Frame h h1 p) {d : OrderedCollection}
    {a : List Int} (hl : h.load d.array_ = some a) (hne : d.array_ ≠ p) (k : Int) :
    peek h1 d k = peek h d k := by
  simp only [peek, hF.2 _ hne (Heap.load_lt hl)]

theorem Frame.get_eq {h h1 : Heap} {p : Nat} (hF : Frame h h1 p) {d : OrderedCollection}
    {a : List Int} (hl : h.load d.array_ = some a) (hne : d.array_ ≠ p) (i : Int) :
    get h1 d i = get h d i := by
  rw [get_eq_peek, get_eq_peek, hF.peek_eq hl hne]

theorem Frame.inv {h h1 : Heap} {p : Nat} (hF : Frame h h1 p) {d : OrderedCollection}
    (hI : Inv h d) (hne : d.array_ ≠ p) : Inv h1 d := by
  obtain ⟨a, hl, hlen⟩ := hI.live
  exact ⟨⟨a, by rw [hF.2 _ hne (Heap.load_lt hl)]; exact hl, hlen⟩, hI.count, hI.size_nonneg,
    hI.first_nonneg, hI.last_le, hI.size_le⟩

/-- Inside the window the accessor reads a slot of the block. -/
theorem get_eq_some_of_lt {h : Heap} {c : OrderedCollection} (hI : Inv h c) {i : Int}
    (h0 : 0 ≤ i) (h1 : i < c.size_) : ∃ v, get h c i = some v := by
  obtain ⟨a, hl, hlen⟩ := hI.live
  have hc := hI.count
  have hf := hI.first_nonneg
  have hla := hI.last_le
  rw [get_of_le h h0 (by omega), peek_of_load hl]
  exact rd_eq_some_of_lt (by omega) (by omega)

/-! ## Index writes -/

theorem put_spec {h : Heap} {c : OrderedCollection} (hI : Inv h c) (i v : Int)
    (hs0 : 0 ≤ c.subscript i) (hs1 : c.subscript i < c.alloc_size) :
    ∃ h1, put h c i v = some h1 ∧ Inv h1 c ∧ Frame h h1 c.array_ ∧
      ∀ k, peek h1 c k = if k = c.subscript i then some v else peek h c k := by
  obtain ⟨a, hl, hlen⟩ := hI.live
  obtain ⟨b, hb⟩ := wr_eq_some_of_lt a v hs0 (by omega)
  refine ⟨h.store c.array_ b, by simp only [put, hl, hb], ?_, Frame.store _ _ _, ?_⟩
  · exact ⟨⟨b, Heap.load_store_self b (Heap.load_lt hl), by rw [wr_length hb]; exact hlen⟩,
      hI.count, hI.size_nonneg, hI.first_nonneg, hI.last_le, hI.size_le⟩
  · intro k
    rw [peek_store b hl rfl, rd_wr hb, peek_of_load hl]

/-! ## Removal -/

theorem remove_spec {h : Heap} {c : OrderedCollection} (hI : Inv h c) (x : Int) :
    (∃ k h1 c1, 0 ≤ k ∧ k < c.size_ ∧ get h c k = some x ∧
        (∀ i, 0 ≤ i → i < k → get h c i ≠ some x) ∧
        remove h c x = some (true, h1, c1) ∧ Inv h1 c1 ∧ Frame h h1 c.array_ ∧
        c1 = { c with first := c.first + 1, size_ := c.size_ - 1 } ∧
        (∀ i, 0 ≤ i → i < k → get h1 c1 i = get h c i) ∧
        (∀ i, k ≤ i → i < c.size_ - 1 → get h1 c1 i = get h c (i + 1))) ∨
    (remove h c x = some (false, h, c) ∧ ∀ i, 0 ≤ i → i < c.size_ → get h c i ≠ some x) := by
  obtain ⟨a, hl, hlen⟩ := hI.live
  have hc := hI.count
  have hn := hI.size_nonneg
  have hf := hI.first_nonneg
  have hla := hI.last_le
  by_cases hz : c.size_ = 0
  · refine Or.inr ⟨by simp only [remove, hz, if_true], ?_⟩
    intro i h0 h1
    omega
  · rcases findLoop_spec x c.last a (c.last + 1 - c.first).toNat c.first rfl hf (by omega) with
      ⟨m, hm, hm1, hm2, hm3, hm4⟩ | ⟨hm, hm1⟩
    · obtain ⟨b, hb, hbl, hbk⟩ :=
        closeGap_spec c.first (m - c.first).toNat m a rfl hf (by omega)
      refine Or.inl ⟨m - c.first, h.store c.array_ b,
        { c with first := c.first + 1, size_ := c.size_ - 1 }, by omega, by omega, ?_, ?_, ?_, ?_,
        Frame.store _ _ _, rfl, ?_, ?_⟩
      · rw [get_of_le h (by omega) (by omega), peek_of_load hl]
        have : m - c.first + c.first = m := by ring
        rw [this, hm3]
      · intro i h0 h1
        rw [get_of_le h h0 (by omega), peek_of_load hl]
        exact hm4 _ (by omega) (by omega)
      · simp only [remove, hz, if_false, hl, hm, hb]
      · exact ⟨⟨b, Heap.load_store_self b (Heap.load_lt hl), by rw [hbl]; exact hlen⟩,
          by simp only; omega, by simp only; omega, by simp only; omega, hla,
          by simp only; omega⟩
      · intro i h0 h1
        rw [get_of_le _ h0 (by simp only; omega), get_of_le h h0 (by omega),
          peek_store (d := { c with first := c.first + 1, size_ := c.size_ - 1 }) b hl rfl,
          peek_of_load hl, hbk]
        dsimp only
        have hcond : c.first < i + (c.first + 1) ∧ i + (c.first + 1) ≤ m := by omega
        have harg : i + (c.first + 1) - 1 = i + c.first := by ring
        simp only [hcond, and_self, if_true, harg]
      · intro i h0 h1
        rw [get_of_le _ (by omega) (by simp only; omega), get_of_le h (by omega) (by omega),
          peek_store (d := { c with first := c.first + 1, size_ := c.size_ - 1 }) b hl rfl,
          peek_of_load hl, hbk]
        dsimp only
        have hcond : ¬ (c.first < i + (c.first + 1) ∧ i + (c.first + 1) ≤ m) := by omega
        have harg : i + (c.first + 1) = i + 1 + c.first := by ring
        rw [if_neg hcond, harg]
    · refine Or.inr ⟨by simp only [remove, hz, if_false, hl, hm], ?_⟩
      intro i h0 h1
      rw [get_of_le h h0 (by omega), peek_of_load hl]
      exact hm1 _ (by omega) (by omega)

end OrderedCollection

/-! ## Growth -/

namespace OrderedCollection

theorem tdiv_two_bounds {n : Int} (hn : 0 ≤ n) :
    0 ≤ Int.tdiv n 2 ∧ 2 * Int.tdiv n 2 ≤ n ∧ n ≤ 2 * Int.tdiv n 2 + 1 := by
  rw [Int.tdiv_eq_ediv hn (by decide)]
  omega

/-- The body of `grow` once the size of the new block is known to be non-negative and to
hold the window at its new place. -/
theorem grow_core {h : Heap} {c : OrderedCollection} (hI : Inv h c)
    (hn0 : 0 ≤ wrap32 (c.alloc_size * 2))
    (hbd : Int.tdiv c.alloc_size 2 + c.size_ ≤ wrap32 (c.alloc_size * 2)) :
    ∃ h1, grow h c =
        some (h1, { c with alloc_size := wrap32 (c.alloc_size * 2), array_ := h.cells.length,
                           first := Int.tdiv c.alloc_size 2,
                           last := Int.tdiv c.alloc_size 2 + c.size_ - 1 }) ∧
      Inv h1 { c with alloc_size := wrap32 (c.alloc_size * 2), array_ := h.cells.length,
                      first := Int.tdiv c.alloc_size 2,
                      last := Int.tdiv c.alloc_size 2 + c.size_ - 1 } ∧
      Frame h h1 c.array_ ∧
      ∀ i, 0 ≤ i → i < c.size_ →
        get h1 { c with alloc_size := wrap32 (c.alloc_size * 2), array_ := h.cells.length,
                        first := Int.tdiv c.alloc_size 2,
                        last := Int.tdiv c.alloc_size 2 + c.size_ - 1 } i = get h c i := by
  obtain ⟨a, hl, hlen⟩ := hI.live
  have hc := hI.count
  have hn := hI.size_nonneg
  have hf := hI.first_nonneg
  have hla := hI.last_le
  have hcap : 0 ≤ c.alloc_size := by omega
  obtain ⟨t0, t1, t2⟩ := tdiv_two_bounds hcap
  have hlt := Heap.load_lt hl
  obtain ⟨g, hg, hglen, ⟨dst, hdst, hdlen⟩, hgo⟩ := Heap.alloc_eq_some h hn0
  have hsrc : g.load c.array_ = some a := by rw [hgo _ (by omega)]; exact hl
  obtain ⟨b, hb, hbl, hbk⟩ :=
    growLoop_spec a c.last (c.last + 1 - c.first).toNat c.first (Int.tdiv c.alloc_size 2) dst
      rfl hf t0 (by omega) (by omega)
  have hsrc2 : (g.store h.cells.length b).load c.array_ = some a := by
    rw [Heap.load_store_of_ne g b (by omega)]; exact hsrc
  obtain ⟨f, hfr, hflen, -, hfo⟩ := Heap.free_eq_some hsrc2
  have hnew : f.load h.cells.length = some b := by
    rw [hfo _ (by omega)]
    exact Heap.load_store_self b (by omega)
  refine ⟨f, by simp only [grow, hg, hsrc, hdst, hb, hfr], ?_, ?_, ?_⟩
  · exact ⟨⟨b, hnew, by rw [hbl]; exact hdlen⟩, by simp only; omega, hn, t0,
      by simp only; omega, by simp only; omega⟩
  · refine ⟨by rw [hflen, Heap.cells_length_store]; omega, ?_⟩
    intro q hq hql
    rw [hfo _ hq, Heap.load_store_of_ne g b (by omega), hgo _ (by omega)]
  · intro i h0 h1
    rw [get_of_le _ h0 (by simp only; omega), get_of_le h h0 (by omega), peek_of_load hl]
    simp only [peek, hnew]
    rw [hbk]
    have hcond : Int.tdiv c.alloc_size 2 ≤ i + Int.tdiv c.alloc_size 2 ∧
        i + Int.tdiv c.alloc_size 2 ≤ Int.tdiv c.alloc_size 2 + (c.last - c.first) := by omega
    have harg : i + Int.tdiv c.alloc_size 2 - Int.tdiv c.alloc_size 2 + c.first = i + c.first := by
      ring
    rw [if_pos hcond, harg]

/-- Below `2^30` slots the doubling has an `int` value and `grow` returns. -/
theorem grow_spec {h : Heap} {c : OrderedCollection} (hI : Inv h c)
    (hfit : c.alloc_size < 1073741824) :
    ∃ h1 c1, grow h c = some (h1, c1) ∧ Inv h1 c1 ∧ Frame h h1 c.array_ ∧
      c1 = { c with alloc_size := c.alloc_size * 2, array_ := h.cells.length,
                    first := Int.tdiv c.alloc_size 2,
                    last := Int.tdiv c.alloc_size 2 + c.size_ - 1 } ∧
      ∀ i, 0 ≤ i → i < c.size_ → get h1 c1 i = get h c i := by
  have hn := hI.size_nonneg
  have hsz := hI.size_le
  have hcap : 0 ≤ c.alloc_size := by omega
  obtain ⟨t0, t1, t2⟩ := tdiv_two_bounds hcap
  have hw : wrap32 (c.alloc_size * 2) = c.alloc_size * 2 :=
    wrap32_of_range (by omega) (by omega)
  obtain ⟨h1, hg, hI1, hF, hget⟩ := grow_core hI (by rw [hw]; omega) (by rw [hw]; omega)
  rw [hw] at hg hI1 hget
  exact ⟨h1, _, hg, hI1, hF, rfl, hget⟩

/-- From `2^30` slots on the doubling has no `int` value: the wrapped size is negative, the
allocation `new int[alloc_size * 2]` fails and `grow` does not return. -/
theorem grow_overflow (h : Heap) {c : OrderedCollection} (h0 : 1073741824 ≤ c.alloc_size)
    (h1 : c.alloc_size ≤ 2147483647) :
    h.alloc (wrap32 (c.alloc_size * 2)) = none ∧ grow h c = none := by
  have hneg : ¬ (0 ≤ wrap32 (c.alloc_size * 2)) := by
    have := wrap32_neg_of_overflow (n := c.alloc_size * 2) (by omega) (by omega)
    omega
  have ha : h.alloc (wrap32 (c.alloc_size * 2)) = none := by
    simp only [Heap.alloc, hneg, if_false]
  exact ⟨ha, by simp only [grow, ha]⟩

/-- Whenever `grow` returns on a full buffer, its result is the re-centred copy: the
allocation and every slot access of the copy loop have succeeded. -/
theorem grow_of_some {h h1 : Heap} {c c1 : OrderedCollection} (hI : Inv h c)
    (hfull : c.size_ = c.alloc_size) (hg : grow h c = some (h1, c1)) :
    Inv h1 c1 ∧ Frame h h1 c.array_ ∧
      c1 = { c with alloc_size := wrap32 (c.alloc_size * 2), array_ := h.cells.length,
                    first := Int.tdiv c.alloc_size 2,
                    last := Int.tdiv c.alloc_size 2 + c.size_ - 1 } ∧
      (c.first ≤ c.last → c.size_ < wrap32 (c.alloc_size * 2)) ∧
      ∀ i, 0 ≤ i → i < c.size_ → get h1 c1 i = get h c i := by
  obtain ⟨a, hl, hlen⟩ := hI.live
  have hc := hI.count
  have hn := hI.size_nonneg
  have hcap : 0 ≤ c.alloc_size := by omega
  obtain ⟨t0, t1, t2⟩ := tdiv_two_bounds hcap
  have hlt := Heap.load_lt hl
  have hn0 : 0 ≤ wrap32 (c.alloc_size * 2) := by
    by_contra hneg
    simp only [grow, Heap.alloc, hneg, if_false] at hg
    cases hg
  obtain ⟨g, hga, hglen, ⟨dst, hdst, hdlen⟩, hgo⟩ := Heap.alloc_eq_some h hn0
  have hsrc : g.load c.array_ = some a := by rw [hgo _ (by omega)]; exact hl
  have hbd : c.first ≤ c.last →
      Int.tdiv c.alloc_size 2 + (c.last - c.first) < wrap32 (c.alloc_size * 2) := by
    intro hne
    have hg2 := hg
    simp only [grow, hga, hsrc, hdst] at hg2
    split at hg2
    · rename_i dst1 hloop
      obtain ⟨-, -, -, hd⟩ := growLoop_bounds a c.last _ _ _ dst dst1 hloop hne
      omega
    · cases hg2
  have hbd2 : Int.tdiv c.alloc_size 2 + c.size_ ≤ wrap32 (c.alloc_size * 2) := by
    by_cases hne : c.first ≤ c.last
    · have := hbd hne
      omega
    · omega
  obtain ⟨h2, hg2, hI2, hF, hget⟩ := grow_core hI hn0 hbd2
  rw [hg2] at hg
  cases hg
  refine ⟨hI2, hF, rfl, ?_, hget⟩
  intro hne
  have hb := hbd hne
  have hwd : wrap32 (c.alloc_size * 2) =
      (c.alloc_size * 2 + 2147483648) % 4294967296 - 2147483648 := rfl
  omega

/-! ## Insertion -/

theorem insert_spec {h : Heap} {c : OrderedCollection} (hI : Inv h c)
    (hroom : c.size_ < c.alloc_size) (x : Int) {pos : Int} (hp0 : 0 ≤ pos)
    (hp1 : pos ≤ c.size_) :
    ∃ h1 c1, insert h c x pos = some (h1, c1) ∧ Inv h1 c1 ∧ Frame h h1 c.array_ ∧
      c1 = (if c.first ≠ 0 then { c with first := c.first - 1, size_ := c.size_ + 1 }
            else { c with last := c.last + 1, size_ := c.size_ + 1 }) ∧
      get h1 c1 pos = some x ∧
      (∀ i, 0 ≤ i → i < pos → get h1 c1 i = get h c i) ∧
      (∀ i, pos < i → i ≤ c.size_ → get h1 c1 i = get h c (i - 1)) := by
  obtain ⟨a, hl, hlen⟩ := hI.live
  have hc := hI.count
  have hn := hI.size_nonneg
  have hf := hI.first_nonneg
  have hla := hI.last_le
  by_cases hfz : c.first ≠ 0
  · obtain ⟨a1, ha1, ha1l, ha1k⟩ :=
      shiftLeft_spec pos c.last (c.last + 1 - c.first).toNat c.first 0 a
        (by omega) hp0 (by omega) (by omega) (by omega)
    obtain ⟨b, hb⟩ := wr_eq_some_of_lt a1 x (i := c.first + (pos - 0) - 1) (by omega) (by omega)
    have hbl := wr_length hb
    have hpk : ∀ k, peek (h.store c.array_ b)
        { c with first := c.first - 1, size_ := c.size_ + 1 } k = rd b k :=
      fun k => peek_store b hl rfl k
    refine ⟨h.store c.array_ b, { c with first := c.first - 1, size_ := c.size_ + 1 },
      by rw [insert, if_pos hfz]; simp only [hl, ha1, hb], ?_,
      Frame.store _ _ _, by rw [if_pos hfz], ?_, ?_, ?_⟩
    · exact ⟨⟨b, Heap.load_store_self b (Heap.load_lt hl), by rw [hbl, ha1l]; exact hlen⟩,
        by simp only; omega, by simp only; omega, by simp only; omega, hla,
        by simp only; omega⟩
    · rw [get_of_le _ hp0 (by simp only; omega), hpk, rd_wr hb]
      dsimp only
      rw [if_pos (by ring)]
    · intro i h0 h1
      rw [get_of_le _ h0 (by simp only; omega), get_of_le h h0 (by omega), hpk, rd_wr hb,
        ha1k, peek_of_load hl]
      dsimp only
      have e1 : ¬ (i + (c.first - 1) = c.first + (pos - 0) - 1) := by omega
      have e2 : c.first - 1 ≤ i + (c.first - 1) ∧ i + (c.first - 1) < c.first - 1 + (pos - 0) := by
        omega
      have e3 : i + (c.first - 1) + 1 = i + c.first := by ring
      rw [if_neg e1, if_pos e2, e3]
    · intro i h0 h1
      rw [get_of_le _ (by omega) (by simp only; omega), get_of_le h (by omega) (by omega), hpk,
        rd_wr hb, ha1k, peek_of_load hl]
      dsimp only
      have e1 : ¬ (i + (c.first - 1) = c.first + (pos - 0) - 1) := by omega
      have e2 : ¬ (c.first - 1 ≤ i + (c.first - 1) ∧
          i + (c.first - 1) < c.first - 1 + (pos - 0)) := by omega
      have e3 : i + (c.first - 1) = i - 1 + c.first := by ring
      rw [if_neg e1, if_neg e2, e3]
  · have hfz0 : c.first = 0 := by
      by_contra hne
      exact hfz hne
    have hlast : c.last ≠ c.alloc_size - 1 := by omega
    obtain ⟨a1, ha1, ha1l, ha1k⟩ :=
      shiftRight_spec pos (c.last + 1 - pos).toNat c.last a rfl hp0 (by omega)
    obtain ⟨b, hb⟩ := wr_eq_some_of_lt a1 x (i := pos) hp0 (by omega)
    have hbl := wr_length hb
    have hpk : ∀ k, peek (h.store c.array_ b)
        { c with last := c.last + 1, size_ := c.size_ + 1 } k = rd b k :=
      fun k => peek_store b hl rfl k
    refine ⟨h.store c.array_ b, { c with last := c.last + 1, size_ := c.size_ + 1 },
      by rw [insert, if_neg hfz, if_pos hlast]; simp only [hl, ha1, hb], ?_,
      Frame.store _ _ _, by rw [if_neg hfz], ?_, ?_, ?_⟩
    · exact ⟨⟨b, Heap.load_store_self b (Heap.load_lt hl), by rw [hbl, ha1l]; exact hlen⟩,
        by simp only; omega, by simp only; omega, hf, by simp only; omega,
        by simp only; omega⟩
    · rw [get_of_le _ hp0 (by simp only; omega), hpk, rd_wr hb]
      dsimp only
      rw [if_pos (by omega)]
    · intro i h0 h1
      rw [get_of_le _ h0 (by simp only; omega), get_of_le h h0 (by omega), hpk, rd_wr hb,
        ha1k, peek_of_load hl]
      dsimp only
      have e1 : ¬ (i + c.first = pos) := by omega
      have e2 : ¬ (pos < i + c.first ∧ i + c.first ≤ c.last + 1) := by omega
      rw [if_neg e1, if_neg e2]
    · intro i h0 h1
      rw [get_of_le _ (by omega) (by simp only; omega), get_of_le h (by omega) (by omega), hpk,
        rd_wr hb, ha1k, peek_of_load hl]
      dsimp only
      have e1 : ¬ (i + c.first = pos) := by omega
      have e2 : pos < i + c.first ∧ i + c.first ≤ c.last + 1 := by omega
      have e3 : i + c.first - 1 = i - 1 + c.first := by ring
      rw [if_neg e1, if_pos e2, e3]

end OrderedCollection

/-! ## Addition, construction and copying -/

namespace OrderedCollection

theorem Frame.trans_fresh {h h1 h2 : Heap} {p p1 : Nat} (hF : Frame h h1 p)
    (hG : Frame h1 h2 p1) (hp1 : h.cells.length ≤ p1) : Frame h h2 p := by
  refine ⟨le_trans hF.1 hG.1, ?_⟩
  intro q hq hql
  rw [hG.2 q (by omega) (by have := hF.1; omega), hF.2 q hq hql]

theorem add_invalid (h : Heap) (c : OrderedCollection) (x : Int) {pos : Int}
    (hp : pos < 0 ∨ pos > c.size_) : add h c x pos = some (h, c) := by
  have hv : pos > c.size_ ∨ pos < 0 := by omega
  rw [add, if_pos hv]

theorem add_spec {h : Heap} {c : OrderedCollection} (hI : Inv h c)
    (hcap : c.first ≤ c.last ∨ 2 ≤ c.alloc_size)
    (hfit : c.size_ < c.alloc_size ∨ c.alloc_size < 1073741824) (x pos : Int)
    (hp0 : 0 ≤ pos) (hp1 : pos ≤ c.size_) :
    ∃ h1 c1, add h c x pos = some (h1, c1) ∧ Inv h1 c1 ∧ Frame h h1 c.array_ ∧
      c1.size_ = c.size_ + 1 ∧
      c1.alloc_size = (if c.first ≤ c.last ∧ c.size_ = c.alloc_size then c.alloc_size * 2
        else c.alloc_size) ∧
      get h1 c1 pos = some x ∧
      (∀ i, 0 ≤ i → i < pos → get h1 c1 i = get h c i) ∧
      (∀ i, pos < i → i ≤ c.size_ → get h1 c1 i = get h c (i - 1)) := by
  obtain ⟨a, hl, hlen⟩ := hI.live
  have hc := hI.count
  have hn := hI.size_nonneg
  have hf := hI.first_nonneg
  have hla := hI.last_le
  have hv : ¬ (pos > c.size_ ∨ pos < 0) := by omega
  by_cases hgt : c.first > c.last
  · have h2 : 2 ≤ c.alloc_size := by omega
    obtain ⟨t0, t1, t2⟩ := tdiv_two_bounds (n := c.alloc_size) (by omega)
    obtain ⟨b, hb⟩ := wr_eq_some_of_lt a x (i := Int.tdiv c.alloc_size 2 - 1) (by omega) (by omega)
    have hpk : ∀ k, peek (h.store c.array_ b)
        { c with first := Int.tdiv c.alloc_size 2 - 1, last := Int.tdiv c.alloc_size 2 - 1,
                 size_ := c.size_ + 1 } k = rd b k :=
      fun k => peek_store b hl rfl k
    have hcond : ¬ (c.first ≤ c.last ∧ c.size_ = c.alloc_size) := by omega
    refine ⟨h.store c.array_ b,
      { c with first := Int.tdiv c.alloc_size 2 - 1, last := Int.tdiv c.alloc_size 2 - 1,
               size_ := c.size_ + 1 },
      by rw [add, if_neg hv, if_pos hgt]; simp only [hl, hb], ?_, Frame.store _ _ _, rfl,
      by rw [if_neg hcond], ?_, ?_, ?_⟩
    · exact ⟨⟨b, Heap.load_store_self b (Heap.load_lt hl), by rw [wr_length hb]; exact hlen⟩,
        by simp only; omega, by simp only; omega, by simp only; omega, by simp only; omega,
        by simp only; omega⟩
    · rw [get_of_le _ hp0 (by simp only; omega), hpk, rd_wr hb]
      dsimp only
      rw [if_pos (by omega)]
    · intro i h0 h1
      omega
    · intro i h0 h1
      omega
  · by_cases hfull : c.size_ = c.alloc_size
    · obtain ⟨h1, c1, hg, hI1, hF1, hc1, hget1⟩ := grow_spec hI (by omega)
      have hroom : c1.size_ < c1.alloc_size := by rw [hc1]; simp only; omega
      have hs1 : c1.size_ = c.size_ := by rw [hc1]
      obtain ⟨h2, c2, hins, hI2, hF2, hc2, hx, hlo, hhi⟩ :=
        insert_spec hI1 hroom x hp0 (by omega)
      have hcond : c.first ≤ c.last ∧ c.size_ = c.alloc_size := ⟨by omega, hfull⟩
      refine ⟨h2, c2, by rw [add, if_neg hv, if_neg hgt, if_pos hfull]; simp only [hg, hins],
        hI2, ?_, ?_, ?_, hx, ?_, ?_⟩
      · refine Frame.trans_fresh hF1 hF2 ?_
        rw [hc1]
      · rw [hc2]
        split <;> simp only <;> omega
      · rw [hc2, if_pos hcond]
        split <;> simp only [hc1]
      · intro i h0 h1
        rw [hlo i h0 h1, hget1 i h0 (by omega)]
      · intro i h0 h1
        rw [hhi i h0 (by omega), hget1 (i - 1) (by omega) (by omega)]
    · have hroom : c.size_ < c.alloc_size := by omega
      obtain ⟨h2, c2, hins, hI2, hF2, hc2, hx, hlo, hhi⟩ := insert_spec hI hroom x hp0 hp1
      have hcond : ¬ (c.first ≤ c.last ∧ c.size_ = c.alloc_size) := fun hh => hfull hh.2
      refine ⟨h2, c2, by rw [add, if_neg hv, if_neg hgt, if_neg hfull]; exact hins,
        hI2, hF2, ?_, ?_, hx, hlo, hhi⟩
      · rw [hc2]
        split <;> rfl
      · rw [hc2, if_neg hcond]
        split <;> rfl

/-- On a full buffer of `2^30` slots or more `add` with a valid `pos` does not return: the
growth step fails at its allocation. -/
theorem add_overflow (h : Heap) {c : OrderedCollection} (x pos : Int)
    (hp0 : 0 ≤ pos) (hp1 : pos ≤ c.size_) (hne : c.first ≤ c.last)
    (hfull : c.size_ = c.alloc_size) (h0 : 1073741824 ≤ c.alloc_size)
    (h1 : c.alloc_size ≤ 2147483647) : add h c x pos = none := by
  have hv : ¬ (pos > c.size_ ∨ pos < 0) := by omega
  have hgt : ¬ (c.first > c.last) := by omega
  rw [add, if_neg hv, if_neg hgt, if_pos hfull, (grow_overflow h h0 h1).2]

theorem ctor_spec (h : Heap) :
    ∃ h1, ctor h = some (h1, { size_ := 0, array_ := h.cells.length, first := 1, last := 0,
                               alloc_size := 4 }) ∧
      Inv h1 { size_ := 0, array_ := h.cells.length, first := 1, last := 0, alloc_size := 4 } ∧
      h1.cells.length = h.cells.length + 1 ∧
      ∀ q, q ≠ h.cells.length → h1.load q = h.load q := by
  obtain ⟨g, hg, hglen, ⟨dst, hdst, hdlen⟩, hgo⟩ := Heap.alloc_eq_some h (n := 4) (by decide)
  refine ⟨g, by simp only [ctor, hg], ?_, hglen, hgo⟩
  exact ⟨⟨dst, hdst, hdlen⟩, by simp only; omega, by simp only; omega, by simp only; omega,
    by simp only; omega, by simp only; omega⟩

theorem copy_spec {h : Heap} {c : OrderedCollection} (hI : Inv h c) :
    ∃ h1, copy h c = some (h1, { c with array_ := h.cells.length }) ∧
      Inv h1 { c with array_ := h.cells.length } ∧
      h1.cells.length = h.cells.length + 1 ∧
      (∀ q, q ≠ h.cells.length → h1.load q = h.load q) ∧
      ∀ i, 0 ≤ i → i < c.size_ → get h1 { c with array_ := h.cells.length } i = get h c i := by
  obtain ⟨a, hl, hlen⟩ := hI.live
  have hc := hI.count
  have hn := hI.size_nonneg
  have hf := hI.first_nonneg
  have hla := hI.last_le
  have hlt := Heap.load_lt hl
  obtain ⟨g, hg, hglen, ⟨dst, hdst, hdlen⟩, hgo⟩ :=
    Heap.alloc_eq_some h (n := c.alloc_size) (by omega)
  have hsrc : g.load c.array_ = some a := by rw [hgo _ (by omega)]; exact hl
  obtain ⟨b, hb, hbl, hbk⟩ :=
    copyLoop_spec a c.last (c.last + 1 - c.first).toNat c.first dst rfl hf (by omega) (by omega)
  have hnew : (g.store h.cells.length b).load h.cells.length = some b :=
    Heap.load_store_self b (by omega)
  refine ⟨g.store h.cells.length b, by simp only [copy, copyCtor, hg, hsrc, hdst, hb], ?_,
    by rw [Heap.cells_length_store, hglen], ?_, ?_⟩
  · exact ⟨⟨b, hnew, by rw [hbl]; exact hdlen⟩, hc, hn, hf, hla, hI.size_le⟩
  · intro q hq
    rw [Heap.load_store_of_ne g b hq, hgo q hq]
  · intro i h0 h1
    rw [get_of_le _ h0 (by simp only; omega), get_of_le h h0 (by omega), peek_of_load hl]
    simp only [peek, hnew]
    rw [hbk, if_pos (by omega)]

end OrderedCollection

/-! ## Membership, frames and runs -/

namespace OrderedCollection

theorem containsLoop_spec {h : Heap} {c : OrderedCollection} (hI : Inv h c) (x : Int) :
    ∀ (n : Nat) (i : Int), n = (c.size_ - i).toNat → 0 ≤ i →
      ∃ b, containsLoop h c x n i = some b ∧
        (b = true ↔ ∃ m, i ≤ m ∧ m < c.size_ ∧ get h c m = some x) := by
  intro n
  induction n with
  | zero =>
    intro i hn hi
    have hgt : ¬ (i ≤ c.size_ - 1) := by omega
    refine ⟨false, by simp only [containsLoop, hgt, if_false], ?_⟩
    constructor
    · intro hb
      cases hb
    · rintro ⟨m, h1, h2, -⟩
      omega
  | succ n ih =>
    intro i hn hi
    have hle : i ≤ c.size_ - 1 := by omega
    obtain ⟨v, hv⟩ := get_eq_some_of_lt hI hi (by omega)
    by_cases e : v = x
    · subst e
      refine ⟨true, by simp only [containsLoop, hle, if_true, hv], ?_⟩
      constructor
      · intro _
        exact ⟨i, le_refl _, by omega, hv⟩
      · intro _
        rfl
    · obtain ⟨b, hb, hiff⟩ := ih (i + 1) (by omega) (by omega)
      refine ⟨b, by simp only [containsLoop, hle, if_true, hv, e, if_false, hb], ?_⟩
      rw [hiff]
      constructor
      · rintro ⟨m, h1, h2, h3⟩
        exact ⟨m, by omega, h2, h3⟩
      · rintro ⟨m, h1, h2, h3⟩
        by_cases em : m = i
        · subst em
          rw [hv] at h3
          exact absurd (Option.some.inj h3) e
        · exact ⟨m, by omega, h2, h3⟩

theorem put_frame {h h1 : Heap} {c : OrderedCollection} {i v : Int}
    (hp : put h c i v = some h1) : Frame h h1 c.array_ := by
  unfold put at hp
  split at hp
  · split at hp
    · cases hp
      exact Frame.store _ _ _
    · cases hp
  · cases hp

theorem remove_frame {h h1 : Heap} {c c1 : OrderedCollection} {x : Int} {b : Bool}
    (hI : Inv h c) (hr : remove h c x = some (b, h1, c1)) :
    Frame h h1 c.array_ ∧ Inv h1 c1 ∧ c1.alloc_size = c.alloc_size ∧
      c1.size_ = (if b = true then c.size_ - 1 else c.size_) := by
  rcases remove_spec hI x with ⟨k, h2, c2, -, -, -, -, hrem, hI2, hF, hc2, -, -⟩ | ⟨hrem, -⟩
  · rw [hrem] at hr
    cases hr
    refine ⟨hF, hI2, by rw [hc2], by rw [hc2]; rfl⟩
  · rw [hrem] at hr
    cases hr
    exact ⟨Frame.refl _ _, hI, rfl, rfl⟩

theorem insert_frame {h h1 : Heap} {c c1 : OrderedCollection} {x pos : Int}
    (hi : insert h c x pos = some (h1, c1)) : Frame h h1 c.array_ := by
  unfold insert at hi
  split at hi
  · split at hi
    · split at hi
      · split at hi
        · cases hi
          exact Frame.store _ _ _
        · cases hi
      · cases hi
    · cases hi
  · split at hi
    · split at hi
      · split at hi
        · split at hi
          · cases hi
            exact Frame.store _ _ _
          · cases hi
        · cases hi
      · cases hi
    · cases hi
      exact Frame.refl _ _

theorem add_frame {h h1 : Heap} {c c1 : OrderedCollection} {x pos : Int}
    (hI : Inv h c) (ha : add h c x pos = some (h1, c1)) : Frame h h1 c.array_ := by
  by_cases hv : pos < 0 ∨ pos > c.size_
  · rw [add_invalid h c x hv] at ha
    cases ha
    exact Frame.refl _ _
  · have hv2 : ¬ (pos > c.size_ ∨ pos < 0) := by omega
    by_cases hgt : c.first > c.last
    · rw [add, if_neg hv2, if_pos hgt] at ha
      dsimp only at ha
      split at ha
      · split at ha
        · cases ha
          exact Frame.store _ _ _
        · cases ha
      · cases ha
    · by_cases hfull : c.size_ = c.alloc_size
      · rw [add, if_neg hv2, if_neg hgt, if_pos hfull] at ha
        split at ha
        · rename_i g d hg
          obtain ⟨-, hF, hd, -, -⟩ := grow_of_some hI hfull hg
          refine Frame.trans_fresh hF (insert_frame ha) ?_
          rw [hd]
        · cases ha
      · rw [add, if_neg hv2, if_neg hgt, if_neg hfull] at ha
        exact insert_frame ha

/-- Every reachable collection satisfies the invariant, has at least four slots, and has a
capacity that is a value of `int`. -/
theorem reachable_inv_and_capacity {h : Heap} {c : OrderedCollection} (hR : Reachable h c) :
    Inv h c ∧ 4 ≤ c.alloc_size ∧ c.alloc_size ≤ 2147483647 := by
  induction hR with
  | @ctor h0 h1 c0 hc =>
    obtain ⟨g, hg, hI, -, -⟩ := ctor_spec h0
    rw [hg] at hc
    cases hc
    exact ⟨hI, le_refl _, by show (4 : Int) ≤ 2147483647; decide⟩
  | @add h0 h1 c0 c1 x pos _ ha ih =>
    obtain ⟨hI, h4, hmax⟩ := ih
    have hc := hI.count
    have hsz := hI.size_le
    by_cases hv : pos < 0 ∨ pos > c0.size_
    · rw [add_invalid h0 c0 x hv] at ha
      cases ha
      exact ⟨hI, h4, hmax⟩
    · by_cases hfit : c0.size_ < c0.alloc_size ∨ c0.alloc_size < 1073741824
      · obtain ⟨h2, c2, hadd, hI2, -, -, hcap, -⟩ :=
          add_spec hI (Or.inr (by omega)) hfit x pos (by omega) (by omega)
        rw [hadd] at ha
        cases ha
        refine ⟨hI2, ?_, ?_⟩
        · rw [hcap]
          split <;> omega
        · rw [hcap]
          split <;> omega
      · rw [add_overflow h0 x pos (by omega) (by omega) (by omega) (by omega) (by omega)
          hmax] at ha
        cases ha
  | @remove h0 h1 c0 c1 x b _ hr ih =>
    obtain ⟨hI, h4, hmax⟩ := ih
    obtain ⟨-, hI1, hcap, -⟩ := remove_frame hI hr
    exact ⟨hI1, by rw [hcap]; exact h4, by rw [hcap]; exact hmax⟩
  | @copy h0 h1 c0 c1 _ hc ih =>
    obtain ⟨hI, h4, hmax⟩ := ih
    obtain ⟨g, hg, hI1, -⟩ := copy_spec hI
    rw [hg] at hc
    cases hc
    exact ⟨hI1, h4, hmax⟩
  | @copySource h0 h1 c0 c1 _ hc ih =>
    obtain ⟨hI, h4, hmax⟩ := ih
    obtain ⟨a, hl, hlen⟩ := hI.live
    obtain ⟨g, hg, -, -, hgo, -⟩ := copy_spec hI
    rw [hg] at hc
    cases hc
    have hne : c0.array_ ≠ h0.cells.length := by
      have := Heap.load_lt hl
      omega
    exact ⟨⟨⟨a, by rw [hgo _ hne]; exact hl, hlen⟩, hI.count, hI.size_nonneg, hI.first_nonneg,
      hI.last_le, hI.size_le⟩, h4, hmax⟩
  | @put g g1 c0 i v _ h0 h1 hp ih =>
    obtain ⟨hI, h4, hmax⟩ := ih
    have hc := hI.count
    have hf := hI.first_nonneg
    have hla := hI.last_le
    have hs : c0.subscript i = i + c0.first := subscript_of_le h0 (by omega)
    obtain ⟨g2, hput, hI2, -, -⟩ := put_spec hI i v (by omega) (by omega)
    rw [hput] at hp
    cases hp
    exact ⟨hI2, h4, hmax⟩

/-- Whenever a run of calls returns, the size has changed by the counted adds minus the
counted removes. -/
theorem runOps_size :
    ∀ (ops : List Op) (h : Heap) (c : OrderedCollection) (a r : Int), Inv h c →
      2 ≤ c.alloc_size → c.alloc_size ≤ 2147483647 →
      ∀ h1 c1 a1 r1, runOps ops h c a r = some (h1, c1, a1, r1) →
        c1.size_ - c.size_ = (a1 - a) - (r1 - r) := by
  intro ops
  induction ops with
  | nil =>
    intro h c a r _ _ _ h1 c1 a1 r1 hrun
    simp only [runOps, Option.some.injEq, Prod.mk.injEq] at hrun
    obtain ⟨-, hc1, ha1, hr1⟩ := hrun
    subst hc1 ha1 hr1
    omega
  | cons op ops ih =>
    intro h c a r hI h2 hmax h1 c1 a1 r1 hrun
    have hc := hI.count
    have hsz := hI.size_le
    cases op with
    | add x pos =>
      by_cases hv : pos < 0 ∨ pos > c.size_
      · have hcond : ¬ (0 ≤ pos ∧ pos ≤ c.size_) := by omega
        simp only [runOps, add_invalid h c x hv, if_neg hcond] at hrun
        exact ih h c a r hI h2 hmax h1 c1 a1 r1 hrun
      · have hcond : 0 ≤ pos ∧ pos ≤ c.size_ := by omega
        by_cases hfit : c.size_ < c.alloc_size ∨ c.alloc_size < 1073741824
        · obtain ⟨g, d, hadd, hI2, -, hs, hcap, -⟩ :=
            add_spec hI (Or.inr h2) hfit x pos (by omega) (by omega)
          have hd2 : 2 ≤ d.alloc_size := by
            rw [hcap]
            split <;> omega
          have hdmax : d.alloc_size ≤ 2147483647 := by
            rw [hcap]
            split <;> omega
          simp only [runOps, hadd, if_pos hcond] at hrun
          have := ih g d (a + 1) r hI2 hd2 hdmax h1 c1 a1 r1 hrun
          omega
        · have hnone : add h c x pos = none :=
            add_overflow h x pos (by omega) (by omega) (by omega) (by omega) (by omega) hmax
          simp only [runOps, hnone] at hrun
          cases hrun
    | remove x =>
      rcases remove_spec hI x with ⟨k, g, d, -, -, -, -, hrem, hI2, -, hd, -, -⟩ | ⟨hrem, -⟩
      · have hd2 : 2 ≤ d.alloc_size := by rw [hd]; exact h2
        have hdmax : d.alloc_size ≤ 2147483647 := by rw [hd]; exact hmax
        have hds : d.size_ = c.size_ - 1 := by rw [hd]
        simp only [runOps, hrem, if_true] at hrun
        have := ih g d a (r + 1) hI2 hd2 hdmax h1 c1 a1 r1 hrun
        omega
      · simp only [runOps, hrem, Bool.false_eq_true, if_false] at hrun
        exact ih h c a r hI h2 hmax h1 c1 a1 r1 hrun

/-- A run of calls returns as long as the size cannot reach `2^30`, the capacity at which the
growth step overflows. -/
theorem runOps_total :
    ∀ (ops : List Op) (h : Heap) (c : OrderedCollection) (a r : Int), Inv h c →
      2 ≤ c.alloc_size → c.size_ + ops.length ≤ 1073741824 →
      ∃ h1 c1 a1 r1, runOps ops h c a r = some (h1, c1, a1, r1) := by
  intro ops
  induction ops with
  | nil =>
    intro h c a r _ _ _
    exact ⟨h, c, a, r, rfl⟩
  | cons op ops ih =>
    intro h c a r hI h2 hlen
    have hc := hI.count
    have hsz := hI.size_le
    simp only [List.length_cons, Nat.cast_add, Nat.cast_one] at hlen
    cases op with
    | add x pos =>
      by_cases hv : pos < 0 ∨ pos > c.size_
      · have hcond : ¬ (0 ≤ pos ∧ pos ≤ c.size_) := by omega
        obtain ⟨h1, c1, a1, r1, hrun⟩ := ih h c a r hI h2 (by omega)
        exact ⟨h1, c1, a1, r1, by simp only [runOps, add_invalid h c x hv, if_neg hcond, hrun]⟩
      · have hcond : 0 ≤ pos ∧ pos ≤ c.size_ := by omega
        obtain ⟨g, d, hadd, hI2, -, hs, hcap, -⟩ :=
          add_spec hI (Or.inr h2) (by omega) x pos (by omega) (by omega)
        have hd2 : 2 ≤ d.alloc_size := by
          rw [hcap]
          split <;> omega
        obtain ⟨h1, c1, a1, r1, hrun⟩ := ih g d (a + 1) r hI2 hd2 (by omega)
        exact ⟨h1, c1, a1, r1, by simp only [runOps, hadd, if_pos hcond, hrun]⟩
    | remove x =>
      rcases remove_spec hI x with ⟨k, g, d, -, -, -, -, hrem, hI2, -, hd, -, -⟩ | ⟨hrem, -⟩
      · have hd2 : 2 ≤ d.alloc_size := by rw [hd]; exact h2
        have hds : d.size_ = c.size_ - 1 := by rw [hd]
        obtain ⟨h1, c1, a1, r1, hrun⟩ := ih g d a (r + 1) hI2 hd2 (by omega)
        exact ⟨h1, c1, a1, r1, by simp only [runOps, hrem, if_true, hrun]⟩
      · obtain ⟨h1, c1, a1, r1, hrun⟩ := ih h c a r hI h2 (by omega)
        exact ⟨h1, c1, a1, r1,
          by simp only [runOps, hrem, Bool.false_eq_true, if_false, hrun]⟩

theorem two_pow_le_limit {k : Nat} (hk : k ≤ 30) : 2 ^ k ≤ 1073741824 := by
  have h := Nat.pow_le_pow_right (n := 2) (by decide) hk
  have e : 2 ^ 30 = 1073741824 := by norm_num
  omega

theorem two_pow_lt_limit {k : Nat} (hk : 2 ^ k < 1073741824) : k < 30 := by
  by_contra hge
  have h := Nat.pow_le_pow_right (n := 2) (by decide) (show 30 ≤ k by omega)
  have e : 2 ^ 30 = 1073741824 := by norm_num
  omega

/-- A run of additions at the front that would take the size to `2^30 + 1` does not return:
the capacities are the powers of two `4, 8, ..., 2^30`, so at size `2^30` the buffer is full
at capacity `2^30` and the next growth step overflows. -/
theorem runOps_adds_overflow :
    ∀ (n : Nat) (h : Heap) (c : OrderedCollection) (a r : Int) (k : Nat), Inv h c →
      2 ≤ k → k ≤ 30 → c.alloc_size = ((2 ^ k : Nat) : Int) →
      c.size_ + n = 1073741825 →
      runOps (List.replicate n (Op.add 0 0)) h c a r = none := by
  intro n
  induction n with
  | zero =>
    intro h c a r k hI hk2 hk30 hk hn
    have hsz := hI.size_le
    have := two_pow_le_limit hk30
    simp only [Nat.cast_zero, add_zero] at hn
    omega
  | succ n ih =>
    intro h c a r k hI hk2 hk30 hk hn
    have hc := hI.count
    have hsz := hI.size_le
    have hs0 := hI.size_nonneg
    have hle := two_pow_le_limit hk30
    have h4 : 2 ^ 2 ≤ 2 ^ k := Nat.pow_le_pow_right (by decide) hk2
    have e4 : 2 ^ 2 = 4 := by norm_num
    simp only [Nat.cast_add, Nat.cast_one] at hn
    by_cases hfit : c.size_ < c.alloc_size ∨ c.alloc_size < 1073741824
    · obtain ⟨g, d, hadd, hI2, -, hs, hcap, -⟩ :=
        add_spec hI (Or.inr (by omega)) hfit 0 0 (le_refl _) hs0
      have hcond : (0 : Int) ≤ 0 ∧ (0 : Int) ≤ c.size_ := ⟨le_refl _, hs0⟩
      simp only [List.replicate_succ, runOps, hadd, if_pos hcond]
      by_cases hgrown : c.first ≤ c.last ∧ c.size_ = c.alloc_size
      · rw [if_pos hgrown] at hcap
        have hk29 : k < 30 := two_pow_lt_limit (by omega)
        have e : 2 ^ (k + 1) = 2 ^ k * 2 := by ring
        exact ih g d (a + 1) r (k + 1) hI2 (by omega) (by omega)
          (by rw [hcap, hk, e]; push_cast; ring) (by omega)
      · rw [if_neg hgrown] at hcap
        exact ih g d (a + 1) r k hI2 hk2 hk30 (by rw [hcap, hk]) (by omega)
    · have hnone : add h c 0 0 = none :=
        add_overflow h 0 0 (le_refl _) hs0 (by omega) (by omega) (by omega) (by omega)
      simp only [List.replicate_succ, runOps, hnone]

end OrderedCollection

/-! ## Facts about the concrete states -/

open OrderedCollection

theorem inv_heapA : Inv heapA ocA := by decide

theorem inv_heapBig : Inv heapBig ocBig :=
  ⟨⟨List.replicate 1073741824 0, rfl, by rw [List.length_replicate]; rfl⟩, by decide,
    by decide, by decide, by decide, by decide⟩

/-- On the full buffer of `2^30` slots the growth step fails at its allocation, so neither
`grow` nor an `add` with a valid `pos` returns. -/
theorem big_overflows (x pos : Int) (hp0 : 0 ≤ pos) (hp1 : pos ≤ 1073741824) :
    heapBig.alloc (wrap32 (ocBig.alloc_size * 2)) = none ∧ grow heapBig ocBig = none ∧
      growIfFull heapBig ocBig = none ∧ add heapBig ocBig x pos = none := by
  have hg := grow_overflow heapBig (c := ocBig) (by decide) (by decide)
  refine ⟨hg.1, hg.2, ?_, ?_⟩
  · rw [growIfFull, if_pos (by decide), hg.2]
  · exact add_overflow heapBig x pos hp0 hp1 (by decide) (by decide) (by decide) (by decide)

theorem inv_heapPair_fresh : Inv heapPair ocFresh := by decide

theorem inv_heapPair_one : Inv heapPair ocOne := by decide

/-- The state `heapA`, `ocA` is the one `main` reaches by its first three additions. -/
theorem reachable_heapA : Reachable heapA ocA := by
  have r0 : Reachable { cells := [some [0, 0, 0, 0]], junk := fun _ _ => 0 }
      { size_ := 0, array_ := 0, first := 1, last := 0, alloc_size := 4 } :=
    @Reachable.ctor heap0 _ _ rfl
  have r1 : Reachable { cells := [some [0, 10, 0, 0]], junk := fun _ _ => 0 }
      { size_ := 1, array_ := 0, first := 1, last := 1, alloc_size := 4 } :=
    Reachable.add 10 0 r0 rfl
  have r2 : Reachable { cells := [some [10, 200, 0, 0]], junk := fun _ _ => 0 }
      { size_ := 2, array_ := 0, first := 0, last := 1, alloc_size := 4 } :=
    Reachable.add 200 1 r1 rfl
  exact Reachable.add 250 1 r2 rfl

/-- C1 (amended): for every buffer that satisfies the data-model invariant, is non-empty or
has at least two slots (every buffer the program builds has at least four), and has a free
slot or a capacity below `2^30` (so that `alloc_size * 2` in the growth step has an `int`
value), every value and every `pos` with `0 <= pos <= count`, `add(value, pos)` completes and
inserts `value` at logical index `pos`: `size()` is the old size plus one, the read at `pos`
is `value`, the read at every `i < pos` is the old read at `i`, and the read at every `i` with
`pos < i <= old count` is the old read at `i - 1`.  The result satisfies the invariant
again.  This covers the empty buffer, the front and back insertions, and the full buffer that
grows first. -/
theorem C1_add_inserts_at_pos (h : Heap) (c : OrderedCollection) (x pos : Int)
    (hI : Inv h c) (hcap : c.first ≤ c.last ∨ 2 ≤ c.alloc_size)
    (hfit : c.size_ < c.alloc_size ∨ c.alloc_size < 1073741824)
    (hp0 : 0 ≤ pos) (hp1 : pos ≤ c.size_) :
    ∃ h1 c1, add h c x pos = some (h1, c1) ∧ Inv h1 c1 ∧ c1.size = c.size + 1 ∧
      get h1 c1 pos = some x ∧
      (∀ i, 0 ≤ i → i < pos → get h1 c1 i = get h c i) ∧
      (∀ i, pos < i → i ≤ c.size_ → get h1 c1 i = get h c (i - 1)) := by
  obtain ⟨h1, c1, hadd, hI1, -, hs, -, hx, hlo, hhi⟩ := add_spec hI hcap hfit x pos hp0 hp1
  exact ⟨h1, c1, hadd, hI1, hs, hx, hlo, hhi⟩

/-- C1 (amended) at the call `add(300, 2)` on `[10, 250, 200]`, which has room, and at the
call `add(5, 0)` on the full buffer `[10, 200, 250, 300]`, which grows first. -/
theorem C1_add_inserts_at_pos_witness :
    Inv heapA ocA ∧ (0 : Int) ≤ 2 ∧ (2 : Int) ≤ ocA.size_ ∧
      (∃ h1 c1, add heapA ocA 300 2 = some (h1, c1) ∧ c1.size = 4 ∧
        get h1 c1 2 = some 300 ∧ get h1 c1 3 = some 200) ∧
      Inv heapFull ocFull ∧ ocFull.size_ = ocFull.alloc_size ∧
      ∃ h1 c1, add heapFull ocFull 5 0 = some (h1, c1) ∧ c1.size = 5 ∧
        get h1 c1 0 = some 5 ∧ get h1 c1 4 = some 300 := by
  obtain ⟨h1, c1, hadd, -, hs, hx, -, hhi⟩ :=
    C1_add_inserts_at_pos heapA ocA 300 2 inv_heapA (Or.inl (by decide)) (Or.inl (by decide))
      (by decide) (by decide)
  obtain ⟨g1, d1, hadd2, -, hs2, hx2, -, hhi2⟩ :=
    C1_add_inserts_at_pos heapFull ocFull 5 0 (by decide) (Or.inl (by decide))
      (Or.inr (by decide)) (by decide) (by decide)
  exact ⟨inv_heapA, by decide, by decide,
    ⟨h1, c1, hadd, hs, hx, hhi 3 (by decide) (by decide)⟩, by decide, by decide,
    g1, d1, hadd2, hs2, hx2, (hhi2 4 (by decide) (by decide)).trans rfl⟩

/-- C1 as stated fails on a full buffer of `2^30` elements at capacity `2^30`, which satisfies
the data-model invariant: `add(7, 0)` enters `grow`, where `alloc_size * 2` is `2^31` and has
no `int` value; the wrapped size is negative, `new int[alloc_size * 2]` fails, and the call
yields no buffer with one more element. -/
theorem C1_counterexample :
    Inv heapBig ocBig ∧ (0 : Int) ≤ 0 ∧ (0 : Int) ≤ ocBig.size_ ∧
      ocBig.size_ = ocBig.alloc_size ∧ ocBig.alloc_size * 2 > 2147483647 ∧
      wrap32 (ocBig.alloc_size * 2) < 0 ∧ add heapBig ocBig 7 0 = none ∧
      ¬ ∃ h1 c1, add heapBig ocBig 7 0 = some (h1, c1) ∧ c1.size = ocBig.size + 1 ∧
        get h1 c1 0 = some 7 := by
  have hnone : add heapBig ocBig 7 0 = none :=
    (big_overflows 7 0 (by decide) (by decide)).2.2.2
  refine ⟨inv_heapBig, by decide, by decide, by decide, by decide, by decide, hnone, ?_⟩
  rintro ⟨h1, c1, hadd, -⟩
  rw [hnone] at hadd
  cases hadd

/-- C2: for every buffer that satisfies the data-model invariant and every value `x`: if `x`
is read at some index below `count`, `remove(x)` returns true, there is a lowest index `k`
reading `x`, and afterwards `size()` is one less, every index below `k` reads as before and
every index `i >= k` reads what `i + 1` read before; if `x` is read at no index, `remove(x)`
returns false and leaves the heap and the object as they were. -/
theorem C2_remove_first_occurrence (h : Heap) (c : OrderedCollection) (x : Int)
    (hI : Inv h c) :
    ((∃ i, 0 ≤ i ∧ i < c.size_ ∧ get h c i = some x) →
      ∃ k h1 c1, 0 ≤ k ∧ k < c.size_ ∧ get h c k = some x ∧
        (∀ i, 0 ≤ i → i < k → get h c i ≠ some x) ∧
        remove h c x = some (true, h1, c1) ∧ Inv h1 c1 ∧ c1.size = c.size - 1 ∧
        (∀ i, 0 ≤ i → i < k → get h1 c1 i = get h c i) ∧
        (∀ i, k ≤ i → i < c.size_ - 1 → get h1 c1 i = get h c (i + 1))) ∧
    ((¬ ∃ i, 0 ≤ i ∧ i < c.size_ ∧ get h c i = some x) →
      remove h c x = some (false, h, c)) := by
  rcases remove_spec hI x with
    ⟨k, h1, c1, hk0, hk1, hkx, hmin, hrem, hI1, -, hc1, hlo, hhi⟩ | ⟨hrem, hno⟩
  · refine ⟨fun _ => ⟨k, h1, c1, hk0, hk1, hkx, hmin, hrem, hI1, by rw [hc1]; rfl, hlo, hhi⟩, ?_⟩
    intro habs
    exact absurd ⟨k, hk0, hk1, hkx⟩ habs
  · refine ⟨?_, fun _ => hrem⟩
    rintro ⟨i, h0, h1, hx⟩
    exact absurd hx (hno i h0 h1)

/-- C2 at `remove(250)` and `remove(12)` on `[10, 250, 200]`: the first returns true and
leaves `[10, 200]`, the second returns false and changes nothing. -/
theorem C2_remove_first_occurrence_witness :
    Inv heapA ocA ∧
      (∃ h1 c1, remove heapA ocA 250 = some (true, h1, c1) ∧ c1.size = 2 ∧
        get h1 c1 0 = some 10 ∧ get h1 c1 1 = some 200) ∧
      remove heapA ocA 12 = some (false, heapA, ocA) := by
  refine ⟨inv_heapA, ?_, ?_⟩
  · obtain ⟨k, g, d, hk0, hk1, hkx, hmin, hrem, -, hs, hlo, hhi⟩ :=
      (C2_remove_first_occurrence heapA ocA 250 inv_heapA).1 ⟨1, by decide, by decide, rfl⟩
    have hsz : ocA.size_ = 3 := rfl
    have hk : k = 1 := by
      have e0 : get heapA ocA 0 = some 10 := rfl
      have e1 : get heapA ocA 1 = some 250 := rfl
      by_contra hne
      rcases lt_or_gt_of_ne hne with hlt | hgt
      · have hz : k = 0 := by omega
        subst hz
        rw [e0] at hkx
        cases hkx
      · exact hmin 1 (by decide) hgt e1
    subst hk
    exact ⟨g, d, hrem, hs.trans (by decide), hlo 0 (by decide) (by decide),
      hhi 1 (by decide) (by decide)⟩
  · refine (C2_remove_first_occurrence heapA ocA 12 inv_heapA).2 ?_
    rintro ⟨i, h0, h1, hx⟩
    have hsz : ocA.size_ = 3 := rfl
    have hcases : i = 0 ∨ i = 1 ∨ i = 2 := by omega
    rcases hcases with e | e | e <;> subst e <;> cases hx

/-- C3 (amended): for every finite sequence of `add` and `remove` calls applied to a newly
constructed buffer in which every call returns, and so for every sequence of at most `2^30`
calls, `size()` at the end is the number of `add` calls whose `pos` satisfied
`0 <= pos <= count` at the time of the call minus the number of `remove` calls that returned
true. -/
theorem C3_size_counts_successes (h : Heap) (ops : List Op) :
    ∃ h0 c0, ctor h = some (h0, c0) ∧
      (∀ h1 c1 a r, runOps ops h0 c0 0 0 = some (h1, c1, a, r) → c1.size = a - r) ∧
      ((ops.length : Int) ≤ 1073741824 →
        ∃ h1 c1 a r, runOps ops h0 c0 0 0 = some (h1, c1, a, r) ∧ c1.size = a - r) := by
  obtain ⟨h0, hc, hI, -, -⟩ := ctor_spec h
  have hsize : ∀ h1 c1 a r,
      runOps ops h0 { size_ := 0, array_ := h.cells.length, first := 1, last := 0,
                      alloc_size := 4 } 0 0 = some (h1, c1, a, r) → c1.size = a - r := by
    intro h1 c1 a r hrun
    have hsz := runOps_size ops h0 _ 0 0 hI (by show (2 : Int) ≤ 4; decide)
      (by show (4 : Int) ≤ 2147483647; decide) h1 c1 a r hrun
    simp only [size]
    simp only at hsz
    omega
  refine ⟨h0, _, hc, hsize, ?_⟩
  intro hlen
  obtain ⟨h1, c1, a, r, hrun⟩ := runOps_total ops h0 _ 0 0 hI (by show (2 : Int) ≤ 4; decide)
    (by show (0 : Int) + (ops.length : Int) ≤ 1073741824; omega)
  exact ⟨h1, c1, a, r, hrun, hsize h1 c1 a r hrun⟩

/-- C3 (amended) on the calls of the removal test of `main`: six additions with a valid `pos`
and three removals, of which `remove(12)` returns false, leave `size() = 6 - 2 = 4`. -/
theorem C3_size_counts_successes_witness :
    ∃ h0 c0 h1 c1, ctor heap0 = some (h0, c0) ∧
      runOps [Op.add 10 0, Op.add 200 1, Op.add 250 2, Op.add 300 3, Op.add 5 0,
          Op.add 275 4, Op.remove 5, Op.remove 12, Op.remove 300] h0 c0 0 0 =
        some (h1, c1, 6, 2) ∧ c1.size = 4 := by
  obtain ⟨h0, c0, hc, hsize, -⟩ :=
    C3_size_counts_successes heap0
      [Op.add 10 0, Op.add 200 1, Op.add 250 2, Op.add 300 3, Op.add 5 0, Op.add 275 4,
        Op.remove 5, Op.remove 12, Op.remove 300]
  have e : ctor heap0 = some ({ cells := [some [0, 0, 0, 0]], junk := fun _ _ => 0 },
      { size_ := 0, array_ := 0, first := 1, last := 0, alloc_size := 4 }) := rfl
  rw [e] at hc
  cases hc
  have hrun : runOps [Op.add 10 0, Op.add 200 1, Op.add 250 2, Op.add 300 3, Op.add 5 0,
      Op.add 275 4, Op.remove 5, Op.remove 12, Op.remove 300]
      { cells := [some [0, 0, 0, 0]], junk := fun _ _ => 0 }
      { size_ := 0, array_ := 0, first := 1, last := 0, alloc_size := 4 } 0 0 =
      some ({ cells := [none, some [5, 10, 10, 200, 250, 275, 0, 0]], junk := fun _ _ => 0 },
        { size_ := 4, array_ := 1, first := 2, last := 5, alloc_size := 8 }, 6, 2) := rfl
  exact ⟨_, _, _, _, e, hrun, (hsize _ _ _ _ hrun).trans (by decide)⟩

/-- C3 as stated fails for the sequence of `2^30 + 1` calls `add(0, 0)` on a newly constructed
buffer: every `pos` is valid, but after `2^30` additions the buffer is full at capacity
`2^30`, the growth step of the next call overflows `int`, and the sequence does not return
with `size() = 2^30 + 1`. -/
theorem C3_counterexample :
    ∃ h0 c0, ctor heap0 = some (h0, c0) ∧
      runOps (List.replicate 1073741825 (Op.add 0 0)) h0 c0 0 0 = none := by
  obtain ⟨h0, hc, hI, -, -⟩ := ctor_spec heap0
  refine ⟨h0, _, hc, ?_⟩
  exact runOps_adds_overflow 1073741825 h0 _ 0 0 2 hI (le_refl _) (by omega)
    (by show (4 : Int) = ((2 ^ 2 : Nat) : Int); norm_num)
    (by show (0 : Int) + ((1073741825 : Nat) : Int) = 1073741825; norm_num)

/-- C4: the constructor yields `size_ = 0`, `alloc_size = 4`, `first = 1`, `last = 0`; every
state reachable from it through `add`, `remove`, `copy` and writes at an index in
`0 .. count - 1` satisfies the data-model invariant: `count == last - first + 1` (so
`count == 0` exactly when `first > last`), `0 <= first`, `last <= allocCapacity - 1` and
`count <= allocCapacity`; and each of these operations preserves it: from a reachable state
every state that `add` returns satisfies the invariant, `add` returns unless the buffer is
full at capacity `2^30` or more, and `remove`, `copy` and the index write return a state that
satisfies the invariant. -/
theorem C4_invariant_reachable :
    (∀ h, ∃ h1 c, ctor h = some (h1, c) ∧ Inv h1 c ∧
      c.size_ = 0 ∧ c.alloc_size = 4 ∧ c.first = 1 ∧ c.last = 0) ∧
    (∀ h c, Reachable h c →
      Inv h c ∧ c.size_ = c.last - c.first + 1 ∧ (c.size_ = 0 ↔ c.first > c.last) ∧
        0 ≤ c.first ∧ c.last ≤ c.alloc_size - 1 ∧ c.size_ ≤ c.alloc_size) ∧
    (∀ h c, Reachable h c →
      (∀ x pos h1 c1, add h c x pos = some (h1, c1) → Inv h1 c1) ∧
      (∀ x pos, (pos < 0 ∨ pos > c.size_ ∨ c.size_ < c.alloc_size ∨
          c.alloc_size < 1073741824) → ∃ h1 c1, add h c x pos = some (h1, c1) ∧ Inv h1 c1) ∧
      (∀ x, ∃ b h1 c1, remove h c x = some (b, h1, c1) ∧ Inv h1 c1) ∧
      (∃ h1 c1, copy h c = some (h1, c1) ∧ Inv h1 c1 ∧ Inv h1 c) ∧
      (∀ i v, 0 ≤ i → i ≤ c.size_ - 1 → ∃ h1, put h c i v = some h1 ∧ Inv h1 c)) := by
  refine ⟨?_, ?_, ?_⟩
  · intro h
    obtain ⟨h1, hc, hI, -, -⟩ := ctor_spec h
    exact ⟨h1, _, hc, hI, rfl, rfl, rfl, rfl⟩
  · intro h c hR
    obtain ⟨hI, -⟩ := reachable_inv_and_capacity hR
    have hc := hI.count
    have hn := hI.size_nonneg
    exact ⟨hI, hc, by constructor <;> intro hh <;> omega, hI.first_nonneg, hI.last_le,
      hI.size_le⟩
  · intro h c hR
    obtain ⟨hI, h4, hmax⟩ := reachable_inv_and_capacity hR
    refine ⟨?_, ?_, ?_, ?_, ?_⟩
    · intro x pos h1 c1 hadd
      exact (reachable_inv_and_capacity (Reachable.add x pos hR hadd)).1
    · intro x pos hh
      by_cases hv : pos < 0 ∨ pos > c.size_
      · exact ⟨h, c, add_invalid h c x hv, hI⟩
      · obtain ⟨h1, c1, hadd, hI1, -⟩ :=
          add_spec hI (Or.inr (by omega)) (by omega) x pos (by omega) (by omega)
        exact ⟨h1, c1, hadd, hI1⟩
    · intro x
      rcases remove_spec hI x with ⟨k, h1, c1, -, -, -, -, hrem, hI1, -⟩ | ⟨hrem, -⟩
      · exact ⟨true, h1, c1, hrem, hI1⟩
      · exact ⟨false, h, c, hrem, hI⟩
    · obtain ⟨h1, hc, hI1, -⟩ := copy_spec hI
      exact ⟨h1, _, hc, hI1, (reachable_inv_and_capacity (Reachable.copySource hR hc)).1⟩
    · intro i v h0 h1
      have hc := hI.count
      have hf := hI.first_nonneg
      have hla := hI.last_le
      have hs : c.subscript i = i + c.first := subscript_of_le h0 (by omega)
      obtain ⟨g, hput, hI2, -, -⟩ := put_spec hI i v (by omega) (by omega)
      exact ⟨g, hput, hI2⟩

/-- C4 at the state of `main` after its first three additions, `[10, 250, 200]`. -/
theorem C4_invariant_reachable_witness :
    Reachable heapA ocA ∧ Inv heapA ocA ∧ ocA.size_ = ocA.last - ocA.first + 1 ∧
      0 ≤ ocA.first ∧ ocA.last ≤ ocA.alloc_size - 1 ∧ ocA.size_ ≤ ocA.alloc_size := by
  obtain ⟨hI, hc, -, hf, hl, hs⟩ := C4_invariant_reachable.2.1 heapA ocA reachable_heapA
  exact ⟨reachable_heapA, hI, hc, hf, hl, hs⟩

/-- C5: for every buffer that satisfies the data-model invariant and every value `x`,
`contains(x)` completes, and it returns true if and only if there is an index `i` with
`0 <= i < count` whose indexed read equals `x`. -/
theorem C5_contains_iff (h : Heap) (c : OrderedCollection) (x : Int) (hI : Inv h c) :
    ∃ b, contains h c x = some b ∧
      (b = true ↔ ∃ i, 0 ≤ i ∧ i < c.size_ ∧ get h c i = some x) := by
  obtain ⟨b, hb, hiff⟩ := containsLoop_spec hI x c.size_.toNat 0 (by simp) (le_refl _)
  exact ⟨b, hb, hiff⟩

/-- C5 on `[10, 250, 200]`: `contains(300)` is false and `contains(200)` is true. -/
theorem C5_contains_iff_witness :
    Inv heapA ocA ∧ contains heapA ocA 300 = some false ∧ contains heapA ocA 200 = some true := by
  refine ⟨inv_heapA, ?_, ?_⟩
  · obtain ⟨b, hb, hiff⟩ := C5_contains_iff heapA ocA 300 inv_heapA
    cases b with
    | false => exact hb
    | true =>
      obtain ⟨i, h0, h1, hx⟩ := hiff.1 rfl
      have hsz : ocA.size_ = 3 := rfl
      have hcases : i = 0 ∨ i = 1 ∨ i = 2 := by omega
      rcases hcases with e | e | e <;> subst e <;> cases hx
  · obtain ⟨b, hb, hiff⟩ := C5_contains_iff heapA ocA 200 inv_heapA
    have hb1 : b = true := hiff.2 ⟨2, by decide, by decide, rfl⟩
    rw [hb1] at hb
    exact hb

/-- C6: for every buffer that satisfies the data-model invariant, `copy()` completes and
returns a buffer with the same count, capacity, first and last, with its own array, and with
the same element at every logical index `0 .. count - 1`; the source reads as before; and a
later `add`, `remove` or index write on the copy leaves every indexed read of the source, and
the invariant of the source, as they were, and the other way round.  The size and the cursors
of an object are members of that object, which a call on another object does not name. -/
theorem C6_copy_is_deep (h : Heap) (c : OrderedCollection) (hI : Inv h c) :
    ∃ h1 cp, copy h c = some (h1, cp) ∧ Inv h1 cp ∧ Inv h1 c ∧
      cp.size = c.size ∧ cp.alloc_size = c.alloc_size ∧ cp.first = c.first ∧
      cp.last = c.last ∧ cp.array_ ≠ c.array_ ∧
      (∀ i, 0 ≤ i → i < c.size_ → get h1 cp i = get h c i) ∧
      (∀ i, get h1 c i = get h c i) ∧
      (∀ x pos h2 cp2, add h1 cp x pos = some (h2, cp2) →
        Inv h2 c ∧ ∀ i, get h2 c i = get h c i) ∧
      (∀ x b h2 cp2, remove h1 cp x = some (b, h2, cp2) →
        Inv h2 c ∧ ∀ i, get h2 c i = get h c i) ∧
      (∀ i v h2, put h1 cp i v = some h2 → Inv h2 c ∧ ∀ j, get h2 c j = get h c j) ∧
      (∀ x pos h2 c2, add h1 c x pos = some (h2, c2) →
        Inv h2 cp ∧ ∀ i, get h2 cp i = get h1 cp i) ∧
      (∀ x b h2 c2, remove h1 c x = some (b, h2, c2) →
        Inv h2 cp ∧ ∀ i, get h2 cp i = get h1 cp i) ∧
      (∀ i v h2, put h1 c i v = some h2 → Inv h2 cp ∧ ∀ j, get h2 cp j = get h1 cp j) := by
  obtain ⟨a, hl, hlen⟩ := hI.live
  have hlt := Heap.load_lt hl
  obtain ⟨h1, hc, hIcp, hlen1, hother, hget⟩ := copy_spec hI
  have hne : c.array_ ≠ h.cells.length := by omega
  have hl1 : h1.load c.array_ = some a := by rw [hother _ hne]; exact hl
  have hIc : Inv h1 c :=
    ⟨⟨a, hl1, hlen⟩, hI.count, hI.size_nonneg, hI.first_nonneg, hI.last_le, hI.size_le⟩
  have hsrc : ∀ i, get h1 c i = get h c i := by
    intro i
    simp only [OrderedCollection.get, hl1, hl]
  obtain ⟨b, hlb, -⟩ := hIcp.live
  have hne2 : ({ c with array_ := h.cells.length } : OrderedCollection).array_ ≠ c.array_ :=
    fun e => hne e.symm
  have onCopy : ∀ h2, Frame h1 h2 h.cells.length →
      Inv h2 c ∧ ∀ i, get h2 c i = get h c i := by
    intro h2 hF
    exact ⟨hF.inv hIc hne, fun i => by rw [hF.get_eq hl1 hne i, hsrc i]⟩
  have onSource : ∀ h2, Frame h1 h2 c.array_ →
      Inv h2 { c with array_ := h.cells.length } ∧
        ∀ i, get h2 { c with array_ := h.cells.length } i =
          get h1 { c with array_ := h.cells.length } i := by
    intro h2 hF
    exact ⟨hF.inv hIcp hne2, fun i => hF.get_eq hlb hne2 i⟩
  refine ⟨h1, _, hc, hIcp, hIc, rfl, rfl, rfl, rfl, hne2, hget, hsrc, ?_, ?_, ?_, ?_, ?_, ?_⟩
  · intro x pos h2 cp2 hadd
    exact onCopy h2 (add_frame hIcp hadd)
  · intro x b h2 cp2 hrem
    exact onCopy h2 (remove_frame hIcp hrem).1
  · intro i v h2 hput
    exact onCopy h2 (put_frame hput)
  · intro x pos h2 c2 hadd
    exact onSource h2 (add_frame hIc hadd)
  · intro x b h2 c2 hrem
    exact onSource h2 (remove_frame hIc hrem).1
  · intro i v h2 hput
    exact onSource h2 (put_frame hput)

/-- C6 at `temp2 = temp->copy(); temp2->add(300, 2);` of `main`: the copy then reads `300`
at index 2 while the source `[10, 250, 200]` still reads `200` there. -/
theorem C6_copy_is_deep_witness :
    Inv heapA ocA ∧
      ∃ h1 cp h2 cp2, copy heapA ocA = some (h1, cp) ∧ add h1 cp 300 2 = some (h2, cp2) ∧
        get h2 cp2 2 = some 300 ∧ get h2 ocA 2 = some 200 := by
  obtain ⟨h1, cp, hc, hIcp, -, hs, hal, hf, hla, -, -, -, honadd, -⟩ :=
    C6_copy_is_deep heapA ocA inv_heapA
  have hsz : cp.size_ = 3 := hs
  obtain ⟨h2, cp2, hadd, -, -, -, -, hx, -, -⟩ :=
    add_spec hIcp (Or.inl (by rw [hf, hla]; decide)) (Or.inl (by rw [hsz, hal]; decide))
      300 2 (by decide) (by rw [hsz]; decide)
  exact ⟨inv_heapA, h1, cp, h2, cp2, hc, hadd, hx, ((honadd 300 2 h2 cp2 hadd).2 2).trans rfl⟩

/-- The assignment never changes `size_`: whatever the argument, the receiver keeps the size
it had. -/
theorem assign_size {h h1 : Heap} {c r : OrderedCollection} {rhs : Rhs}
    (ha : assign h c rhs = some (h1, r)) : r.size = c.size := by
  cases rhs with
  | receiver =>
    simp only [assign, Option.some.injEq, Prod.mk.injEq] at ha
    rw [← ha.2]
  | foreign =>
    simp only [assign, Option.some.injEq, Prod.mk.injEq] at ha
    rw [← ha.2]
  | oc temp =>
    simp only [assign] at ha
    split at ha
    · split at ha
      · split at ha
        · split at ha
          · cases ha
            rfl
          · cases ha
        · cases ha
      · cases ha
    · cases ha

/-- C7, the code at a failing input: the receiver is a new empty collection and the source is
the collection `[10]`, both satisfying the data-model invariant.  The assignment completes and
copies `first = last = 1` and the element, but `size()` of the receiver stays `0` while the
source has `size() = 1`, so the receiver has `count != last - first + 1` and does not satisfy
the invariant. -/
theorem C7_assign_does_not_copy_size :
    Inv heapPair ocFresh ∧ Inv heapPair ocOne ∧
      ∃ h1 r, assign heapPair ocFresh (Rhs.oc ocOne) = some (h1, r) ∧
        r.size = 0 ∧ ocOne.size = 1 ∧ r.first = 1 ∧ r.last = 1 ∧
        peek h1 r 1 = some 10 ∧ r.size_ ≠ r.last - r.first + 1 ∧ ¬ Inv h1 r := by
  refine ⟨inv_heapPair_fresh, inv_heapPair_one,
    { cells := [none, some [0, 10, 0, 0], some [0, 10, 0, 0]], junk := fun _ _ => 0 },
    { size_ := 0, array_ := 2, first := 1, last := 1, alloc_size := 4 },
    rfl, rfl, rfl, rfl, rfl, rfl, by decide, ?_⟩
  intro hI
  exact absurd hI.count (by decide)

/-- C8: for every buffer and every `pos` with `pos < 0` or `pos > count`, `add(value, pos)`
returns with the heap and the object unchanged: count, capacity, first, last and every
storage slot are as before the call. -/
theorem C8_add_invalid_pos_unchanged (h : Heap) (c : OrderedCollection) (x pos : Int)
    (hp : pos < 0 ∨ pos > c.size_) : add h c x pos = some (h, c) :=
  add_invalid h c x hp

/-- C8 at `add(7, 5)` and `add(7, -1)` on `[10, 250, 200]`. -/
theorem C8_add_invalid_pos_unchanged_witness :
    ((5 : Int) < 0 ∨ (5 : Int) > ocA.size_) ∧ add heapA ocA 7 5 = some (heapA, ocA) ∧
      add heapA ocA 7 (-1) = some (heapA, ocA) :=
  ⟨by decide, C8_add_invalid_pos_unchanged heapA ocA 7 5 (by decide),
    C8_add_invalid_pos_unchanged heapA ocA 7 (-1) (by decide)⟩

/-- C9: for every buffer that satisfies the data-model invariant and every `i` with
`0 <= i <= count - 1`, the write `(*this)[i] = v` completes, makes the indexed read at `i`
return `v` and leaves the indexed read at every other index `j` in `0 .. count - 1`
unchanged.  The write changes a slot of the array only: the object, with its `size_`,
`alloc_size`, `first` and `last`, is the same record before and after, and it satisfies the
invariant in the new heap. -/
theorem C9_index_write (h : Heap) (c : OrderedCollection) (i v : Int) (hI : Inv h c)
    (hi0 : 0 ≤ i) (hi1 : i ≤ c.size_ - 1) :
    ∃ h1, put h c i v = some h1 ∧ Inv h1 c ∧ get h1 c i = some v ∧
      ∀ j, 0 ≤ j → j ≤ c.size_ - 1 → j ≠ i → get h1 c j = get h c j := by
  have hc := hI.count
  have hf := hI.first_nonneg
  have hla := hI.last_le
  have hs : c.subscript i = i + c.first := subscript_of_le hi0 (by omega)
  obtain ⟨h1, hput, hI1, -, hpk⟩ := put_spec hI i v (by omega) (by omega)
  refine ⟨h1, hput, hI1, ?_, ?_⟩
  · rw [get_eq_peek, hpk, if_pos rfl]
  · intro j hj0 hj1 hne
    have hsj : c.subscript j = j + c.first := subscript_of_le hj0 (by omega)
    rw [get_eq_peek, hpk, if_neg (by omega), ← get_eq_peek]

/-- C9 at `(*temp)[1] = 100` on `[10, 250, 200]`: index 1 then reads `100`, the indices 0 and
2 still read `10` and `200`. -/
theorem C9_index_write_witness :
    Inv heapA ocA ∧ (0 : Int) ≤ 1 ∧ (1 : Int) ≤ ocA.size_ - 1 ∧
      ∃ h1, put heapA ocA 1 100 = some h1 ∧ get h1 ocA 1 = some 100 ∧
        get h1 ocA 0 = some 10 ∧ get h1 ocA 2 = some 200 := by
  obtain ⟨h1, hput, -, hv, hrest⟩ :=
    C9_index_write heapA ocA 1 100 inv_heapA (by decide) (by decide)
  exact ⟨inv_heapA, by decide, by decide, h1, hput, hv,
    (hrest 0 (by decide) (by decide) (by decide)).trans rfl,
    (hrest 2 (by decide) (by decide) (by decide)).trans rfl⟩

/-- C10 (amended): a write through the reference that the accessor returns for an index it
reports as out of range (`i < 0` or `i > count`) is a store into storage slot 0.  For every
buffer that satisfies the data-model invariant and has at least one slot the write completes
and leaves the object and the indexed read at every index `j` of `0 .. count - 1` unchanged,
except index 0 of a buffer with `first == 0`, which then reads the written value. -/
theorem C10_invalid_index_write (h : Heap) (c : OrderedCollection) (i v : Int)
    (hI : Inv h c) (hcap : 1 ≤ c.alloc_size) (hout : i < 0 ∨ i > c.size_) :
    ∃ h1, put h c i v = some h1 ∧ Inv h1 c ∧
      (∀ j, 0 ≤ j → j ≤ c.size_ - 1 → (c.first ≠ 0 ∨ j ≠ 0) → get h1 c j = get h c j) ∧
      (c.first = 0 → get h1 c 0 = some v) := by
  have hn := hI.size_nonneg
  have hf := hI.first_nonneg
  have hs : c.subscript i = 0 := subscript_of_out hout
  obtain ⟨h1, hput, hI1, -, hpk⟩ := put_spec hI i v (by omega) (by omega)
  refine ⟨h1, hput, hI1, ?_, ?_⟩
  · intro j hj0 hj1 hne
    have hsj : c.subscript j = j + c.first := subscript_of_le hj0 (by omega)
    rw [get_eq_peek, hpk, if_neg (by omega), ← get_eq_peek]
  · intro hz
    have hs0 : c.subscript 0 = 0 + c.first := subscript_of_le (le_refl _) hn
    rw [get_eq_peek, hpk, if_pos (by omega)]

/-- C10 (amended) at `(*temp)[-1] = 99` on `[10, 250, 200]`, where `first == 0`: index 0 then
reads `99`, the indices 1 and 2 read as before. -/
theorem C10_invalid_index_write_witness :
    Inv heapA ocA ∧ (1 : Int) ≤ ocA.alloc_size ∧ ((-1 : Int) < 0 ∨ (-1 : Int) > ocA.size_) ∧
      ∃ h1, put heapA ocA (-1) 99 = some h1 ∧ get h1 ocA 0 = some 99 ∧
        get h1 ocA 1 = some 250 ∧ get h1 ocA 2 = some 200 := by
  obtain ⟨h1, hput, -, hrest, hzero⟩ :=
    C10_invalid_index_write heapA ocA (-1) 99 inv_heapA (by decide) (by decide)
  exact ⟨inv_heapA, by decide, by decide, h1, hput, hzero rfl,
    (hrest 1 (by decide) (by decide) (Or.inr (by decide))).trans rfl,
    (hrest 2 (by decide) (by decide) (Or.inr (by decide))).trans rfl⟩

/-- C10 as stated fails on `[10, 250, 200]`, a state `main` reaches, where `first == 0`: the
accessor reports `-1` as out of range and returns a reference to `array_[0]`, which is logical
index 0, so the write `(*temp)[-1] = 99` changes the indexed read at index 0 from `10` to
`99`. -/
theorem C10_counterexample :
    Reachable heapA ocA ∧ Inv heapA ocA ∧ ((-1 : Int) < 0 ∨ (-1 : Int) > ocA.size_) ∧
      (0 : Int) ≤ ocA.size_ - 1 ∧
      ∃ h1, put heapA ocA (-1) 99 = some h1 ∧ get heapA ocA 0 = some 10 ∧
        get h1 ocA 0 = some 99 ∧ get h1 ocA 0 ≠ get heapA ocA 0 :=
  ⟨reachable_heapA, inv_heapA, by decide, by decide,
    { cells := [some [99, 250, 200, 0]], junk := fun _ _ => 0 }, rfl, rfl, rfl, by decide⟩

/-! ## The growth step, the branches of `add` and the iterator -/

namespace OrderedCollection

theorem illegalBound_eq_true_iff (c : OrderedCollection) (i : Int) :
    illegalBound c i = true ↔ (i < 0 ∨ i > c.size_) := by
  simp only [illegalBound, decide_eq_true_eq]

theorem illegalBound_eq_false_iff (c : OrderedCollection) (i : Int) :
    illegalBound c i = false ↔ (0 ≤ i ∧ i ≤ c.size_) := by
  simp only [illegalBound, decide_eq_false_iff_not]
  omega

/-- Whenever the growth step returns on a non-empty buffer, it leaves a buffer with the same
elements and a free slot. -/
theorem growIfFull_of_some {h h1 : Heap} {c c1 : OrderedCollection} (hI : Inv h c)
    (hne : c.first ≤ c.last) (hg : growIfFull h c = some (h1, c1)) :
    Inv h1 c1 ∧ Frame h h1 c.array_ ∧
      c1 = (if c.size_ = c.alloc_size then
              { c with alloc_size := wrap32 (c.alloc_size * 2), array_ := h.cells.length,
                       first := Int.tdiv c.alloc_size 2,
                       last := Int.tdiv c.alloc_size 2 + c.size_ - 1 }
            else c) ∧
      c1.size_ = c.size_ ∧ c1.size_ < c1.alloc_size ∧ c1.first ≤ c1.last ∧
      (c.size_ ≠ c.alloc_size → h1 = h) ∧
      ∀ i, 0 ≤ i → i < c.size_ → get h1 c1 i = get h c i := by
  have hc := hI.count
  have hla := hI.last_le
  have hf := hI.first_nonneg
  by_cases hfull : c.size_ = c.alloc_size
  · rw [growIfFull, if_pos hfull] at hg
    obtain ⟨hI1, hF1, hc1, hroom, hget1⟩ := grow_of_some hI hfull hg
    have hr := hroom hne
    exact ⟨hI1, hF1, by rw [if_pos hfull]; exact hc1, by rw [hc1], by rw [hc1]; exact hr,
      by rw [hc1]; simp only; omega, fun hh => absurd hfull hh, hget1⟩
  · rw [growIfFull, if_neg hfull] at hg
    cases hg
    exact ⟨hI, Frame.refl _ _, by rw [if_neg hfull], rfl, by omega, hne, fun _ => rfl,
      fun _ _ _ => rfl⟩

/-- The growth step returns on every non-empty buffer that has a free slot or a capacity
below `2^30`. -/
theorem growIfFull_spec {h : Heap} {c : OrderedCollection} (hI : Inv h c)
    (hfit : c.size_ < c.alloc_size ∨ c.alloc_size < 1073741824) :
    ∃ h1 c1, growIfFull h c = some (h1, c1) ∧
      (c.size_ = c.alloc_size → c1.alloc_size = c.alloc_size * 2) := by
  by_cases hfull : c.size_ = c.alloc_size
  · obtain ⟨h1, c1, hg, -, -, hc1, -⟩ := grow_spec hI (by omega)
    exact ⟨h1, c1, by rw [growIfFull, if_pos hfull]; exact hg, fun _ => by rw [hc1]⟩
  · exact ⟨h, c, by rw [growIfFull, if_neg hfull], fun hh => absurd hh hfull⟩

theorem add_eq_insert (h : Heap) (c : OrderedCollection) (x : Int) {pos : Int}
    (hp0 : 0 ≤ pos) (hp1 : pos ≤ c.size_) (hne : c.first ≤ c.last) {h1 : Heap}
    {c1 : OrderedCollection} (hg : growIfFull h c = some (h1, c1)) :
    add h c x pos = insert h1 c1 x pos := by
  have hv : ¬ (pos > c.size_ ∨ pos < 0) := by omega
  have hgt : ¬ (c.first > c.last) := by omega
  rw [add, if_neg hv, if_neg hgt]
  unfold growIfFull at hg
  by_cases hfull : c.size_ = c.alloc_size
  · rw [if_pos hfull] at hg
    rw [if_pos hfull]
    simp only [hg]
  · rw [if_neg hfull] at hg
    cases hg
    rw [if_neg hfull]

theorem add_empty_spec {h : Heap} {c : OrderedCollection} (hI : Inv h c)
    (hemp : c.first > c.last) (hcap : 2 ≤ c.alloc_size) (x : Int) :
    ∃ h1, add h c x 0 =
        some (h1, { c with first := Int.tdiv c.alloc_size 2 - 1,
                           last := Int.tdiv c.alloc_size 2 - 1, size_ := c.size_ + 1 }) ∧
      Frame h h1 c.array_ ∧ c.size_ = 0 ∧
      0 ≤ Int.tdiv c.alloc_size 2 - 1 ∧ Int.tdiv c.alloc_size 2 - 1 < c.alloc_size ∧
      ∀ d : OrderedCollection, d.array_ = c.array_ → ∀ k,
        peek h1 d k = if k = Int.tdiv c.alloc_size 2 - 1 then some x else peek h c k := by
  obtain ⟨a, hl, hlen⟩ := hI.live
  have hc := hI.count
  have hn := hI.size_nonneg
  have hz : c.size_ = 0 := by omega
  have hv : ¬ ((0 : Int) > c.size_ ∨ (0 : Int) < 0) := by omega
  obtain ⟨t0, t1, t2⟩ := tdiv_two_bounds (n := c.alloc_size) (by omega)
  obtain ⟨b, hb⟩ := wr_eq_some_of_lt a x (i := Int.tdiv c.alloc_size 2 - 1) (by omega) (by omega)
  refine ⟨h.store c.array_ b, by rw [add, if_neg hv, if_pos hemp]; simp only [hl, hb],
    Frame.store _ _ _, hz, by omega, by omega, ?_⟩
  intro d hd k
  rw [peek_store b hl hd, rd_wr hb]
  simp only [peek, hl]

theorem foldl_add_eq_sum (l : List Int) :
    ∀ x0 : Int, l.foldl (fun t e => t + e) x0 = x0 + l.sum := by
  induction l with
  | nil =>
    intro x0
    simp
  | cons v l ih =>
    intro x0
    rw [List.foldl_cons, ih, List.sum_cons]
    ring

end OrderedCollection

/-! ## The claims on the accessor, the capacity and the iterator -/

theorem inv_heapFull : Inv heapFull ocFull := by decide

/-- C11: the accessor takes its out-of-range path exactly when `i < 0` or `i > count`, and
then yields storage slot 0 whatever `first` is; for every other `i`, `i == count` included, it
yields storage slot `first + i`; so when `count == last - first + 1` the index `i == count`
yields slot `last + 1`, one past the live window. -/
theorem C11_accessor_slot (c : OrderedCollection) (i : Int) :
    (illegalBound c i = true ↔ (i < 0 ∨ i > c.size_)) ∧
    (illegalBound c i = true → c.subscript i = 0) ∧
    (illegalBound c i = false → c.subscript i = c.first + i) ∧
    (0 ≤ c.size_ → illegalBound c c.size_ = false ∧
      c.subscript c.size_ = c.first + c.size_) ∧
    (0 ≤ c.size_ → c.size_ = c.last - c.first + 1 → c.subscript c.size_ = c.last + 1) := by
  refine ⟨illegalBound_eq_true_iff c i, ?_, ?_, ?_, ?_⟩
  · intro hb
    exact subscript_of_out ((illegalBound_eq_true_iff c i).1 hb)
  · intro hb
    obtain ⟨h0, h1⟩ := (illegalBound_eq_false_iff c i).1 hb
    rw [subscript_of_le h0 h1]
    ring
  · intro hn
    refine ⟨(illegalBound_eq_false_iff c c.size_).2 ⟨hn, le_refl _⟩, ?_⟩
    rw [subscript_of_le hn (le_refl _)]
    ring
  · intro hn hc
    rw [subscript_of_le hn (le_refl _)]
    omega

/-- C11 on `[10, 200, 250, 300]` at capacity 4, where `first = 0` and `last = 3`: index
`4 == count` is not reported and yields slot `4 = last + 1`, which lies outside the block of
four slots, while index `5` is reported and yields slot 0. -/
theorem C11_accessor_slot_witness :
    (0 : Int) ≤ ocFull.size_ ∧ ocFull.size_ = ocFull.last - ocFull.first + 1 ∧
      illegalBound ocFull 4 = false ∧ ocFull.subscript 4 = 4 ∧
      ocFull.subscript ocFull.size_ = ocFull.last + 1 ∧ get heapFull ocFull 4 = none ∧
      illegalBound ocFull 5 = true ∧ ocFull.subscript 5 = 0 := by
  obtain ⟨-, hout, -, hcount, hlast⟩ := C11_accessor_slot ocFull 5
  obtain ⟨hb, hs⟩ := hcount (by decide)
  exact ⟨by decide, by decide, hb, hs, hlast (by decide) (by decide), rfl, by decide,
    hout (by decide)⟩

/-- C14 (amended): for every buffer that satisfies the data-model invariant with capacity at
least 2 and every valid `pos`: if the buffer is not empty, every buffer the growth step
returns has `first != 0` or `last != allocCapacity - 1`, so the branch `Checks failed` is not
taken and `add` returns with `size()` one more than before; and when the buffer has a free
slot or a capacity below `2^30` the growth step does return, so `add` performs an
insertion. -/
theorem C14_checks_failed_unreachable (h : Heap) (c : OrderedCollection) (x pos : Int)
    (hI : Inv h c) (hcap : 2 ≤ c.alloc_size) (hp0 : 0 ≤ pos) (hp1 : pos ≤ c.size_) :
    (¬ c.first > c.last → ∀ h1 c1, growIfFull h c = some (h1, c1) →
      add h c x pos = insert h1 c1 x pos ∧
      (c1.first ≠ 0 ∨ c1.last ≠ c1.alloc_size - 1) ∧ checksFailed c1 = false ∧
      ∃ h2 c2, add h c x pos = some (h2, c2) ∧ c2.size = c.size + 1) ∧
    ((c.size_ < c.alloc_size ∨ c.alloc_size < 1073741824) →
      (¬ c.first > c.last → ∃ h1 c1, growIfFull h c = some (h1, c1)) ∧
      ∃ h2 c2, add h c x pos = some (h2, c2) ∧ c2.size = c.size + 1) := by
  constructor
  · intro hne h1 c1 hg
    obtain ⟨hI1, -, -, hs1, hroom, -, -, -⟩ := growIfFull_of_some hI (by omega) hg
    have hc1 := hI1.count
    have hslack : c1.first ≠ 0 ∨ c1.last ≠ c1.alloc_size - 1 := by omega
    have heq := add_eq_insert h c x hp0 hp1 (by omega) hg
    obtain ⟨h2, c2, hins, -, -, hc2, -⟩ := insert_spec hI1 hroom x hp0 (by omega)
    refine ⟨heq, hslack, ?_, h2, c2, by rw [heq]; exact hins, ?_⟩
    · simp only [checksFailed, decide_eq_false_iff_not]
      intro hh
      omega
    · rw [hc2]
      split
      · show c1.size_ + 1 = c.size_ + 1
        omega
      · show c1.size_ + 1 = c.size_ + 1
        omega
  · intro hfit
    refine ⟨?_, ?_⟩
    · intro _
      obtain ⟨h1, c1, hg, -⟩ := growIfFull_spec hI hfit
      exact ⟨h1, c1, hg⟩
    · obtain ⟨h2, c2, hadd, -, -, hs, -⟩ := add_spec hI (Or.inr hcap) hfit x pos hp0 hp1
      exact ⟨h2, c2, hadd, hs⟩

/-- C14 (amended) on the full buffer `[10, 200, 250, 300]`, where `first == 0` and
`last == allocCapacity - 1` on entry: after the growth step `first` is 2, so `add(5, 0)`
inserts. -/
theorem C14_checks_failed_unreachable_witness :
    Inv heapFull ocFull ∧ (2 : Int) ≤ ocFull.alloc_size ∧ checksFailed ocFull = true ∧
      (∃ h1 c1, growIfFull heapFull ocFull = some (h1, c1) ∧ c1.first = 2 ∧
        checksFailed c1 = false) ∧
      ∃ h2 c2, add heapFull ocFull 5 0 = some (h2, c2) ∧ c2.size = 5 := by
  obtain ⟨hgrow, htotal⟩ :=
    C14_checks_failed_unreachable heapFull ocFull 5 0 inv_heapFull (by decide) (by decide)
      (by decide)
  have e : growIfFull heapFull ocFull =
      some ({ cells := [none, some [0, 0, 10, 200, 250, 300, 0, 0]], junk := fun _ _ => 0 },
        { size_ := 4, array_ := 1, first := 2, last := 5, alloc_size := 8 }) := rfl
  obtain ⟨-, -, hcf, -⟩ := hgrow (by decide) _ _ e
  obtain ⟨-, h2, c2, hadd, hs⟩ := htotal (Or.inr (by decide))
  exact ⟨inv_heapFull, by decide, by decide, ⟨_, _, e, rfl, hcf⟩, h2, c2, hadd, hs⟩

/-- C14 as stated fails on a full buffer of `2^30` elements at capacity `2^30`, which
satisfies the data-model invariant and has capacity at least 2: the growth step overflows
`int` and does not return, so `add(5, 0)` performs no insertion. -/
theorem C14_counterexample :
    Inv heapBig ocBig ∧ (2 : Int) ≤ ocBig.alloc_size ∧ (0 : Int) ≤ 0 ∧
      (0 : Int) ≤ ocBig.size_ ∧ growIfFull heapBig ocBig = none ∧
      add heapBig ocBig 5 0 = none ∧
      ¬ ∃ h2 c2, add heapBig ocBig 5 0 = some (h2, c2) ∧ c2.size = ocBig.size + 1 := by
  obtain ⟨-, -, hgrow, hnone⟩ := big_overflows 5 0 (by decide) (by decide)
  refine ⟨inv_heapBig, by decide, by decide, by decide, hgrow, hnone, ?_⟩
  rintro ⟨h2, c2, hadd, -⟩
  rw [hnone] at hadd
  cases hadd

/-- C15 (amended): for every buffer that satisfies the data-model invariant with
`count == allocCapacity` and a capacity below `2^30`, `grow()` completes and yields a buffer
whose capacity is twice the old capacity, whose `first` is `oldCapacity / 2`, whose `last` is
`oldCapacity / 2 + count - 1`, whose count is unchanged, which satisfies the invariant, and
whose element at every logical index `0 .. count - 1` is the same as before. -/
theorem C15_grow_recentres (h : Heap) (c : OrderedCollection) (hI : Inv h c)
    (hfull : c.size_ = c.alloc_size) (hfit : c.alloc_size < 1073741824) :
    ∃ h1 c1, grow h c = some (h1, c1) ∧ Inv h1 c1 ∧ c1.alloc_size = 2 * c.alloc_size ∧
      c1.first = Int.tdiv c.alloc_size 2 ∧ c1.first = c.alloc_size / 2 ∧
      c1.last = Int.tdiv c.alloc_size 2 + c.size_ - 1 ∧ c1.size = c.size ∧
      ∀ i, 0 ≤ i → i < c.size_ → get h1 c1 i = get h c i := by
  have hn := hI.size_nonneg
  obtain ⟨h1, c1, hg, hI1, -, hc1, hget⟩ := grow_spec hI hfit
  refine ⟨h1, c1, hg, hI1, by rw [hc1]; simp only; ring, by rw [hc1], ?_, by rw [hc1],
    by rw [hc1]; rfl, hget⟩
  rw [hc1]
  exact Int.tdiv_eq_ediv (by omega) (by decide)

/-- C15 (amended) on `[10, 200, 250, 300]` at capacity 4: `grow()` yields capacity 8,
`first = 2`, `last = 5`, and index 3 still reads `300`. -/
theorem C15_grow_recentres_witness :
    Inv heapFull ocFull ∧ ocFull.size_ = ocFull.alloc_size ∧
      ocFull.alloc_size < 1073741824 ∧
      ∃ h1 c1, grow heapFull ocFull = some (h1, c1) ∧ c1.alloc_size = 8 ∧ c1.first = 2 ∧
        c1.last = 5 ∧ c1.size = 4 ∧ get h1 c1 3 = some 300 := by
  obtain ⟨h1, c1, hg, -, hcap, hf, -, hl, hs, hget⟩ :=
    C15_grow_recentres heapFull ocFull inv_heapFull (by decide) (by decide)
  exact ⟨inv_heapFull, by decide, by decide, h1, c1, hg, hcap.trans (by decide),
    hf.trans (by decide), hl.trans (by decide), hs.trans (by decide),
    (hget 3 (by decide) (by decide)).trans rfl⟩

/-- C15 as stated fails on a full buffer of `2^30` elements at capacity `2^30`, which
satisfies the data-model invariant with `count == allocCapacity`: twice the capacity is `2^31`
and has no `int` value, the wrapped size is negative, `new int[alloc_size * 2]` fails, and
`grow()` yields no buffer. -/
theorem C15_counterexample :
    Inv heapBig ocBig ∧ ocBig.size_ = ocBig.alloc_size ∧
      2 * ocBig.alloc_size > 2147483647 ∧ wrap32 (ocBig.alloc_size * 2) < 0 ∧
      heapBig.alloc (wrap32 (ocBig.alloc_size * 2)) = none ∧ grow heapBig ocBig = none ∧
      ¬ ∃ h1 c1, grow heapBig ocBig = some (h1, c1) ∧
        c1.alloc_size = 2 * ocBig.alloc_size := by
  obtain ⟨halloc, hnone, -, -⟩ := big_overflows 0 0 (by decide) (by decide)
  refine ⟨inv_heapBig, by decide, by decide, by decide, halloc, hnone, ?_⟩
  rintro ⟨h1, c1, hg, -⟩
  rw [hnone] at hg
  cases hg

/-! ## The claims on the branches of `add`, memory safety and the round trip -/

theorem inv_heapPair_emptied : Inv heapPair ocEmptied := by decide

theorem inv_heapGrown : Inv heapGrown ocGrown := by decide

/-- The state `heapGrown`, `ocGrown` is the one the removal test of `main` reaches by its
first five additions. -/
theorem reachable_heapGrown : Reachable heapGrown ocGrown := by
  have r0 : Reachable { cells := [some [0, 0, 0, 0]], junk := fun _ _ => 0 }
      { size_ := 0, array_ := 0, first := 1, last := 0, alloc_size := 4 } :=
    @Reachable.ctor heap0 _ _ rfl
  have r1 : Reachable { cells := [some [0, 10, 0, 0]], junk := fun _ _ => 0 }
      { size_ := 1, array_ := 0, first := 1, last := 1, alloc_size := 4 } :=
    Reachable.add 10 0 r0 rfl
  have r2 : Reachable { cells := [some [10, 200, 0, 0]], junk := fun _ _ => 0 }
      { size_ := 2, array_ := 0, first := 0, last := 1, alloc_size := 4 } :=
    Reachable.add 200 1 r1 rfl
  have r3 : Reachable { cells := [some [10, 200, 250, 0]], junk := fun _ _ => 0 }
      { size_ := 3, array_ := 0, first := 0, last := 2, alloc_size := 4 } :=
    Reachable.add 250 2 r2 rfl
  have r4 : Reachable heapFull ocFull := Reachable.add 300 3 r3 rfl
  exact Reachable.add 5 0 r4 rfl

/-- C16: for every empty buffer that satisfies the data-model invariant (`first > last`) and
has at least two slots, whether newly constructed or emptied by removals and whatever its
cursor values, `add(value, 0)` completes, stores `value` in storage slot
`allocCapacity / 2 - 1` and leaves every other slot as it was, sets
`first = last = allocCapacity / 2 - 1` and `count = 1`, and leaves the capacity unchanged.
Every buffer the program builds has at least four slots: the constructor allocates four and
`grow` only doubles. -/
theorem C16_add_to_empty (h : Heap) (c : OrderedCollection) (x : Int) (hI : Inv h c)
    (hemp : c.first > c.last) (hcap : 2 ≤ c.alloc_size) :
    ∃ h1 c1, add h c x 0 = some (h1, c1) ∧ Inv h1 c1 ∧
      peek h1 c1 (Int.tdiv c.alloc_size 2 - 1) = some x ∧
      (∀ k, k ≠ Int.tdiv c.alloc_size 2 - 1 → peek h1 c1 k = peek h c k) ∧
      c1.first = Int.tdiv c.alloc_size 2 - 1 ∧ c1.last = Int.tdiv c.alloc_size 2 - 1 ∧
      c1.size = 1 ∧ c1.alloc_size = c.alloc_size := by
  have hc := hI.count
  have hn := hI.size_nonneg
  obtain ⟨h1, hadd, -, hz, -, -, hpk⟩ := add_empty_spec hI hemp hcap x
  obtain ⟨h2, c2, hadd2, hI2, -⟩ :=
    add_spec hI (Or.inr hcap) (Or.inl (by omega)) x 0 (le_refl _) (by omega)
  rw [hadd] at hadd2
  cases hadd2
  have hp := hpk { c with first := Int.tdiv c.alloc_size 2 - 1,
                          last := Int.tdiv c.alloc_size 2 - 1, size_ := c.size_ + 1 } rfl
  refine ⟨h1, _, hadd, hI2, ?_, ?_, rfl, rfl, ?_, rfl⟩
  · rw [hp, if_pos rfl]
  · intro k hk
    rw [hp, if_neg hk]
  · show c.size_ + 1 = 1
    omega

/-- C16 on a collection emptied by a removal, with `first = 2` and `last = 1` at capacity 4:
`add(7, 0)` stores `7` in slot `4 / 2 - 1 = 1` and sets `first = last = 1`. -/
theorem C16_add_to_empty_witness :
    Inv heapPair ocEmptied ∧ ocEmptied.first > ocEmptied.last ∧
      (2 : Int) ≤ ocEmptied.alloc_size ∧
      ∃ h1 c1, add heapPair ocEmptied 7 0 = some (h1, c1) ∧ peek h1 c1 1 = some 7 ∧
        c1.first = 1 ∧ c1.last = 1 ∧ c1.size = 1 ∧ c1.alloc_size = 4 := by
  obtain ⟨h1, c1, hadd, -, hx, -, hf, hl, hs, hcap⟩ :=
    C16_add_to_empty heapPair ocEmptied 7 inv_heapPair_emptied (by decide) (by decide)
  exact ⟨inv_heapPair_emptied, by decide, by decide, h1, c1, hadd, hx, hf, hl, hs, hcap⟩

/-- C17: for every non-empty buffer that satisfies the data-model invariant, every valid
`pos` and every state the growth step returns, `add` completes; if `first != 0` after the
growth step, `add` leaves `first` one less and `last` unchanged, whether or not there is room
at the back and whatever `pos` is; if `first == 0` after the growth step, then
`last != allocCapacity - 1` and `add` leaves `last` one more and `first` unchanged.  Without
growth the state after the growth step is the state on entry.  The growth step returns
whenever the buffer has a free slot or a capacity below `2^30`. -/
theorem C17_front_slack_preferred (h : Heap) (c : OrderedCollection) (x pos : Int)
    (hI : Inv h c) (hne : c.first ≤ c.last) (hp0 : 0 ≤ pos) (hp1 : pos ≤ c.size_) :
    (∀ h1 c1, growIfFull h c = some (h1, c1) →
      ∃ h2 c2, add h c x pos = some (h2, c2) ∧
        (c.size_ ≠ c.alloc_size → h1 = h ∧ c1 = c) ∧
        (c1.first ≠ 0 → c2.first = c1.first - 1 ∧ c2.last = c1.last) ∧
        (c1.first = 0 →
          c1.last ≠ c1.alloc_size - 1 ∧ c2.last = c1.last + 1 ∧ c2.first = c1.first)) ∧
    ((c.size_ < c.alloc_size ∨ c.alloc_size < 1073741824) →
      ∃ h1 c1, growIfFull h c = some (h1, c1)) := by
  constructor
  · intro h1 c1 hg
    obtain ⟨hI1, -, hc1, hs1, hroom, -, hsame, -⟩ := growIfFull_of_some hI hne hg
    obtain ⟨h2, c2, hins, -, -, hc2, -⟩ := insert_spec hI1 hroom x hp0 (by omega)
    have hcnt := hI1.count
    refine ⟨h2, c2, by rw [add_eq_insert h c x hp0 hp1 hne hg]; exact hins, ?_, ?_, ?_⟩
    · intro hnf
      exact ⟨hsame hnf, by rw [hc1, if_neg hnf]⟩
    · intro hf
      rw [hc2, if_pos hf]
      exact ⟨rfl, rfl⟩
    · intro hf
      have hnf : ¬ (c1.first ≠ 0) := fun hh => hh hf
      rw [hc2, if_neg hnf]
      exact ⟨by omega, rfl, rfl⟩
  · intro hfit
    obtain ⟨h1, c1, hg, -⟩ := growIfFull_spec hI hfit
    exact ⟨h1, c1, hg⟩

/-- C17 on `[10]` with `first = last = 1` at capacity 4, which has room on both sides:
`add(200, 1)`, an insertion at the end, still goes to the front: `first` becomes 0 and `last`
stays 1. -/
theorem C17_front_slack_preferred_witness :
    Inv heapPair ocOne ∧ ocOne.first ≤ ocOne.last ∧ ocOne.last ≠ ocOne.alloc_size - 1 ∧
      growIfFull heapPair ocOne = some (heapPair, ocOne) ∧
      ∃ h2 c2, add heapPair ocOne 200 1 = some (h2, c2) ∧ c2.first = 0 ∧ c2.last = 1 := by
  obtain ⟨hstep, -⟩ :=
    C17_front_slack_preferred heapPair ocOne 200 1 inv_heapPair_one (by decide) (by decide)
      (by decide)
  obtain ⟨h2, c2, hadd, -, hfront, -⟩ := hstep heapPair ocOne rfl
  obtain ⟨hf, hl⟩ := hfront (by decide)
  exact ⟨inv_heapPair_one, by decide, by decide, rfl, h2, c2, hadd, hf.trans (by decide),
    hl.trans (by decide)⟩

/-- C18 (amended): the front-insertion shift loop of `add` does not under-shift.  For every
non-empty buffer that satisfies the data-model invariant, hence for every non-empty buffer
reachable from the constructor, and every `pos` with `0 <= pos <= count`: if `first != 0`
after the growth step, `add(value, pos)` goes through the front-insertion branch (`first`
ends one less, `last` unchanged) and produces the old logical sequence with `value` inserted
at logical index `pos`. -/
theorem C18_front_insertion_shifts_enough (h : Heap) (c : OrderedCollection) (x pos : Int)
    (h1 : Heap) (c1 : OrderedCollection) (hI : Inv h c) (hne : c.first ≤ c.last)
    (hp0 : 0 ≤ pos) (hp1 : pos ≤ c.size_) (hg : growIfFull h c = some (h1, c1))
    (hfront : c1.first ≠ 0) :
    ∃ h2 c2, add h c x pos = some (h2, c2) ∧ c2.first = c1.first - 1 ∧ c2.last = c1.last ∧
      c2.size = c.size + 1 ∧ get h2 c2 pos = some x ∧
      (∀ i, 0 ≤ i → i < pos → get h2 c2 i = get h c i) ∧
      (∀ i, pos < i → i ≤ c.size_ → get h2 c2 i = get h c (i - 1)) := by
  obtain ⟨hI1, -, -, hs1, hroom, -, -, hget1⟩ := growIfFull_of_some hI hne hg
  obtain ⟨h2, c2, hins, -, -, hc2, hx, hlo, hhi⟩ := insert_spec hI1 hroom x hp0 (by omega)
  rw [if_pos hfront] at hc2
  refine ⟨h2, c2, by rw [add_eq_insert h c x hp0 hp1 hne hg]; exact hins, by rw [hc2],
    by rw [hc2], ?_, hx, ?_, ?_⟩
  · rw [hc2]
    show c1.size_ + 1 = c.size_ + 1
    omega
  · intro i h0 hlt
    rw [hlo i h0 hlt, hget1 i h0 (by omega)]
  · intro i hlt hle
    rw [hhi i hlt (by omega), hget1 (i - 1) (by omega) (by omega)]

/-- C18 (amended) at `temp->add(275, 4)` of `main` on `[5, 10, 200, 250, 300]`, where one slot
is free at the front and `pos = 4` elements have to move: the result is
`[5, 10, 200, 250, 275, 300]`. -/
theorem C18_front_insertion_shifts_enough_witness :
    Reachable heapGrown ocGrown ∧ Inv heapGrown ocGrown ∧ ocGrown.first = 1 ∧
      ∃ h2 c2, add heapGrown ocGrown 275 4 = some (h2, c2) ∧ c2.first = 0 ∧ c2.size = 6 ∧
        get h2 c2 0 = some 5 ∧ get h2 c2 1 = some 10 ∧ get h2 c2 2 = some 200 ∧
        get h2 c2 3 = some 250 ∧ get h2 c2 4 = some 275 ∧ get h2 c2 5 = some 300 := by
  obtain ⟨h2, c2, hadd, hf, -, hs, hx, hlo, hhi⟩ :=
    C18_front_insertion_shifts_enough heapGrown ocGrown 275 4 heapGrown ocGrown inv_heapGrown
      (by decide) (by decide) (by decide) rfl (by decide)
  exact ⟨reachable_heapGrown, inv_heapGrown, rfl, h2, c2, hadd, hf.trans (by decide),
    hs.trans (by decide),
    (hlo 0 (by decide) (by decide)).trans rfl, (hlo 1 (by decide) (by decide)).trans rfl,
    (hlo 2 (by decide) (by decide)).trans rfl, (hlo 3 (by decide) (by decide)).trans rfl,
    hx, (hhi 5 (by decide) (by decide)).trans rfl⟩

/-- C18 as stated is false: there is no buffer reachable from the constructor with
`first != 0` and no `pos` with `0 <= pos <= count` for which `add(value, pos)` fails to return
the old logical sequence with `value` inserted at logical index `pos`. -/
theorem C18_counterexample :
    ¬ ∃ (h : Heap) (c : OrderedCollection) (x pos : Int),
        Reachable h c ∧ c.first ≠ 0 ∧ 0 ≤ pos ∧ pos ≤ c.size_ ∧
        ¬ ∃ h2 c2, add h c x pos = some (h2, c2) ∧ c2.size = c.size + 1 ∧
          get h2 c2 pos = some x ∧
          (∀ i, 0 ≤ i → i < pos → get h2 c2 i = get h c i) ∧
          (∀ i, pos < i → i ≤ c.size_ → get h2 c2 i = get h c (i - 1)) := by
  rintro ⟨h, c, x, pos, hR, hfront, hp0, hp1, hbad⟩
  obtain ⟨hI, h4, -⟩ := reachable_inv_and_capacity hR
  have hc := hI.count
  have hf := hI.first_nonneg
  have hla := hI.last_le
  obtain ⟨h2, c2, hadd, -, -, hs, -, hx, hlo, hhi⟩ :=
    add_spec hI (Or.inr (by omega)) (Or.inl (by omega)) x pos hp0 hp1
  exact hbad ⟨h2, c2, hadd, hs, hx, hlo, hhi⟩

/-- C19: for every buffer that satisfies the data-model invariant with capacity at least 2
(a value of `int`), no slot access of `add` with a valid `pos`, of `grow`, of `remove`, or of
the read and the write through the accessor at an index `i` with `0 <= i <= count - 1` falls
outside `[0, capacity)` of its block.  Every slot access of the model yields `none` outside
these bounds and every operation passes `none` on; `remove`, the read and the write always
return a result, and the slot the accessor yields lies in `[0, capacity)`; `add` and `grow`
return a result unless the buffer has `2^30` slots or more and the allocation
`new int[alloc_size * 2]` of the growth step fails (for `add`: on a full buffer), which
happens before any slot is read or written. -/
theorem C19_no_out_of_bounds (h : Heap) (c : OrderedCollection) (hI : Inv h c)
    (hcap : 2 ≤ c.alloc_size) (hint : c.alloc_size ≤ 2147483647) :
    (∀ x pos, 0 ≤ pos → pos ≤ c.size_ →
      (∃ h1 c1, add h c x pos = some (h1, c1)) ∨
      (c.size_ = c.alloc_size ∧ 1073741824 ≤ c.alloc_size ∧
        h.alloc (wrap32 (c.alloc_size * 2)) = none)) ∧
    ((∃ h1 c1, grow h c = some (h1, c1)) ∨
      (1073741824 ≤ c.alloc_size ∧ h.alloc (wrap32 (c.alloc_size * 2)) = none)) ∧
    (∀ x, ∃ b h1 c1, remove h c x = some (b, h1, c1)) ∧
    (∀ i, 0 ≤ i → i ≤ c.size_ - 1 →
      0 ≤ c.subscript i ∧ c.subscript i < c.alloc_size ∧ ∃ v, get h c i = some v) ∧
    (∀ i v, 0 ≤ i → i ≤ c.size_ - 1 → ∃ h1, put h c i v = some h1) := by
  have hc := hI.count
  have hf := hI.first_nonneg
  have hla := hI.last_le
  have hsz := hI.size_le
  refine ⟨?_, ?_, ?_, ?_, ?_⟩
  · intro x pos hp0 hp1
    by_cases hfit : c.size_ < c.alloc_size ∨ c.alloc_size < 1073741824
    · obtain ⟨h1, c1, hadd, -⟩ := add_spec hI (Or.inr hcap) hfit x pos hp0 hp1
      exact Or.inl ⟨h1, c1, hadd⟩
    · exact Or.inr ⟨by omega, by omega, (grow_overflow h (by omega) hint).1⟩
  · by_cases hfit : c.alloc_size < 1073741824
    · obtain ⟨h1, c1, hg, -⟩ := grow_spec hI hfit
      exact Or.inl ⟨h1, c1, hg⟩
    · exact Or.inr ⟨by omega, (grow_overflow h (by omega) hint).1⟩
  · intro x
    rcases remove_spec hI x with ⟨k, h1, c1, -, -, -, -, hrem, -⟩ | ⟨hrem, -⟩
    · exact ⟨true, h1, c1, hrem⟩
    · exact ⟨false, h, c, hrem⟩
  · intro i h0 h1
    have hs : c.subscript i = i + c.first := subscript_of_le h0 (by omega)
    exact ⟨by omega, by omega, get_eq_some_of_lt hI h0 (by omega)⟩
  · intro i v h0 h1
    have hs : c.subscript i = i + c.first := subscript_of_le h0 (by omega)
    obtain ⟨g, hput, -⟩ := put_spec hI i v (by omega) (by omega)
    exact ⟨g, hput⟩

/-- C19 on the full buffer `[10, 200, 250, 300]` at capacity 4: `add(5, 0)`, which grows,
`grow()`, `remove(300)`, the read at index 3 and the write at index 0 all return a result. -/
theorem C19_no_out_of_bounds_witness :
    Inv heapFull ocFull ∧ (2 : Int) ≤ ocFull.alloc_size ∧ ocFull.alloc_size ≤ 2147483647 ∧
      (∃ h1 c1, add heapFull ocFull 5 0 = some (h1, c1)) ∧
      (∃ h1 c1, grow heapFull ocFull = some (h1, c1)) ∧
      (∃ b h1 c1, remove heapFull ocFull 300 = some (b, h1, c1)) ∧
      (∃ v, get heapFull ocFull 3 = some v) ∧ ∃ h1, put heapFull ocFull 0 1 = some h1 := by
  obtain ⟨hadd, hgrow, hrem, hget, hput⟩ := C19_no_out_of_bounds heapFull ocFull inv_heapFull
    (by decide) (by decide)
  have hsmall : ¬ ((1073741824 : Int) ≤ ocFull.alloc_size) := by decide
  refine ⟨inv_heapFull, by decide, by decide, ?_, ?_, hrem 300,
    (hget 3 (by decide) (by decide)).2.2, hput 0 1 (by decide) (by decide)⟩
  · rcases hadd 5 0 (by decide) (by decide) with hr | ⟨-, hbig, -⟩
    · exact hr
    · exact absurd hbig hsmall
  · rcases hgrow with hr | ⟨hbig, -⟩
    · exact hr
    · exact absurd hbig hsmall

/-- Every slot of a block of zeros reads zero. -/
theorem rd_replicate (n : Nat) (k v : Int) (hr : rd (List.replicate n 0) k = some v) :
    v = 0 := by
  unfold rd at hr
  split at hr
  · rw [List.getElem?_replicate] at hr
    split at hr
    · exact (Option.some.inj hr).symm
    · cases hr
  · cases hr

/-- C20 (amended): for every buffer that satisfies the data-model invariant, is non-empty or
has capacity at least 2, and has a free slot or a capacity below `2^30`, every value `v` for
which `contains(v)` is false and every `pos` with `0 <= pos <= count`, `add(v, pos)`
completes, `remove(v)` on its result returns true, and the buffer then has the original
logical sequence: the same `size()` and the same indexed read at every index
`0 .. count - 1`. -/
theorem C20_remove_undoes_add (h : Heap) (c : OrderedCollection) (v pos : Int)
    (hI : Inv h c) (hcap : c.first ≤ c.last ∨ 2 ≤ c.alloc_size)
    (hfit : c.size_ < c.alloc_size ∨ c.alloc_size < 1073741824)
    (hfresh : contains h c v = some false) (hp0 : 0 ≤ pos) (hp1 : pos ≤ c.size_) :
    ∃ h1 c1 h2 c2, add h c v pos = some (h1, c1) ∧ remove h1 c1 v = some (true, h2, c2) ∧
      Inv h2 c2 ∧ c2.size = c.size ∧ ∀ i, 0 ≤ i → i < c.size_ → get h2 c2 i = get h c i := by
  have hno : ∀ i, 0 ≤ i → i < c.size_ → get h c i ≠ some v := by
    obtain ⟨b, hb, hiff⟩ := containsLoop_spec hI v c.size_.toNat 0 (by simp) (le_refl _)
    have hb2 : contains h c v = some b := hb
    rw [hfresh] at hb2
    have hbf : b = false := (Option.some.inj hb2).symm
    intro i h0 hlt hx
    have : b = true := hiff.2 ⟨i, h0, hlt, hx⟩
    rw [hbf] at this
    cases this
  obtain ⟨h1, c1, hadd, hI1, -, hs1, -, hx, hlo, hhi⟩ := add_spec hI hcap hfit v pos hp0 hp1
  rcases remove_spec hI1 v with
    ⟨k, h2, c2, hk0, hk1, hkx, hmin, hrem, hI2, -, hc2, hrlo, hrhi⟩ | ⟨-, hnone⟩
  · have hk : k = pos := by
      by_contra hne
      rcases lt_or_gt_of_ne hne with hlt | hgt
      · have e := hlo k hk0 hlt
        rw [hkx] at e
        exact hno k hk0 (by omega) e.symm
      · exact hmin pos hp0 hgt hx
    subst hk
    refine ⟨h1, c1, h2, c2, hadd, hrem, hI2, ?_, ?_⟩
    · rw [hc2]
      show c1.size_ - 1 = c.size_
      omega
    · intro i h0 hlt
      by_cases hik : i < k
      · rw [hrlo i h0 hik, hlo i h0 hik]
      · rw [hrhi i (by omega) (by omega), hhi (i + 1) (by omega) (by omega)]
        have e : i + 1 - 1 = i := by ring
        rw [e]
  · exact absurd hx (hnone pos hp0 (by omega))

/-- C20 (amended) on the full buffer `[10, 200, 250, 300]` at capacity 4: `add(5, 0)` then
`remove(5)` gives back `[10, 200, 250, 300]`, now at capacity 8 with `first = 2`. -/
theorem C20_remove_undoes_add_witness :
    Inv heapFull ocFull ∧ contains heapFull ocFull 5 = some false ∧
      ∃ h1 c1 h2 c2, add heapFull ocFull 5 0 = some (h1, c1) ∧
        remove h1 c1 5 = some (true, h2, c2) ∧ c2.size = 4 ∧ get h2 c2 0 = some 10 ∧
        get h2 c2 3 = some 300 ∧ c2.alloc_size = 8 ∧ c2.first = 2 := by
  obtain ⟨h1, c1, h2, c2, hadd, hrem, -, hs, hget⟩ :=
    C20_remove_undoes_add heapFull ocFull 5 0 inv_heapFull (Or.inl (by decide))
      (Or.inr (by decide)) rfl (by decide) (by decide)
  have e1 : add heapFull ocFull 5 0 = some (heapGrown, ocGrown) := rfl
  rw [e1] at hadd
  cases hadd
  have e2 : remove heapGrown ocGrown 5 =
      some (true, { cells := [none, some [0, 5, 10, 200, 250, 300, 0, 0]],
                    junk := fun _ _ => 0 },
        { size_ := 4, array_ := 1, first := 2, last := 5, alloc_size := 8 }) := rfl
  rw [e2] at hrem
  cases hrem
  exact ⟨inv_heapFull, rfl, _, _, _, _, e1, e2, hs.trans (by decide),
    (hget 0 (by decide) (by decide)).trans rfl, (hget 3 (by decide) (by decide)).trans rfl,
    rfl, rfl⟩

/-- C20 as stated fails on a full buffer of `2^30` zeros at capacity `2^30`, which satisfies
the data-model invariant, is non-empty and does not contain `9`: the growth step of
`add(9, 0)` overflows `int` and does not return, so there is no buffer on which `remove(9)`
could give the original back. -/
theorem C20_counterexample :
    Inv heapBig ocBig ∧ ocBig.first ≤ ocBig.last ∧ contains heapBig ocBig 9 = some false ∧
      (0 : Int) ≤ 0 ∧ (0 : Int) ≤ ocBig.size_ ∧ add heapBig ocBig 9 0 = none ∧
      ¬ ∃ h1 c1 b h2 c2, add heapBig ocBig 9 0 = some (h1, c1) ∧
        remove h1 c1 9 = some (b, h2, c2) := by
  have hnone : add heapBig ocBig 9 0 = none :=
    (big_overflows 9 0 (by decide) (by decide)).2.2.2
  have hfresh : contains heapBig ocBig 9 = some false := by
    obtain ⟨b, hb, hiff⟩ :=
      containsLoop_spec inv_heapBig 9 ocBig.size_.toNat 0 (by simp) (le_refl _)
    have hb2 : contains heapBig ocBig 9 = some b := hb
    cases b with
    | false => exact hb2
    | true =>
      obtain ⟨m, -, -, hx⟩ := hiff.1 rfl
      have hl : heapBig.load ocBig.array_ = some (List.replicate 1073741824 0) := rfl
      rw [get_eq_peek, peek_of_load hl] at hx
      have h9 := rd_replicate 1073741824 _ 9 hx
      exact absurd h9 (by decide)
  refine ⟨inv_heapBig, by decide, hfresh, by decide, by decide, hnone, ?_⟩
  rintro ⟨h1, c1, b, h2, c2, hadd, -⟩
  rw [hnone] at hadd
  cases hadd

end Collections
